import Mathlib

/-! A verification development for `log.h`.

`log.h` is a single-header logging facility.  This file embeds its functions in Lean and
proves properties of them.

Conventions of the embedding.

* A `std::string` is a `List Char`; one `Char` stands for one C++ `char`.  A C string (a
  string literal such as `__BASE_FILE__`, or what `c_str()` hands to `%s`) is a `List Char`
  as well; the strings of the logging macros come from string literals, so they hold no NUL
  character and `%s` writes them whole.
* A `std::vector<std::string>` is a `List (List Char)`.
* `int` is a 32-bit signed machine integer, embedded in `Int`; the places where the source
  does arithmetic on it check the range explicitly.
* Sizes of strings and vectors are natural numbers; they are taken to fit an `int`, so that
  the cast in `int(size() - 4)` of `getNormalHeader` does not change the value.
* Everything the C++ standard leaves undefined, every failed `assert` and every exception
  that escapes is a `Fault`; a function that can reach one returns `Except Fault _`.  A
  failed `assert` and an exception stop the call.  Undefined behaviour does not: the source
  has no check at such a place, the compiled code goes on, and what it does from there is
  not determined by the source.  The embedding follows the program up to that place and
  no further; `Fault.undefined` tells the two kinds apart.
-/

namespace Log

/-! ## Faults -/

/-- The places at which the embedding stops following a call: the call is stopped there
(a failed `assert`, an exception), or its behaviour is undefined from there on. -/
inductive Fault where
  /-- the check `assert(length > -1)` fails: the call is aborted -/
  | assertion : Fault
  /-- the index `path[path.size() - i]` is not below `path.size()`; `operator[]` does not
  check it, the read is undefined behaviour -/
  | indexOutOfRange : Fault
  /-- the call `back()` or `pop_back()` on an empty vector: undefined behaviour -/
  | emptyBack : Fault
  /-- the exception `std::out_of_range` thrown by `substr` -/
  | substrOutOfRange : Fault
  /-- a result of `int` arithmetic that does not fit 32 bits: undefined behaviour -/
  | intOverflow : Fault
  /-- an index into the digit table of `itoa` outside the table: undefined behaviour -/
  | tableOutOfRange : Fault
  /-- the loop did not finish within the iterations it was given -/
  | outOfFuel : Fault
  deriving DecidableEq, Repr

/-- The faults that are undefined behaviour: the source has no check there and the call is
not stopped. -/
def Fault.undefined : Fault → Bool
  | .assertion => false
  | .indexOutOfRange => true
  | .emptyBack => true
  | .substrOutOfRange => false
  | .intOverflow => true
  | .tableOutOfRange => true
  | .outOfFuel => false

deriving instance DecidableEq for Except

/-! ## Strings -/

/-- The function `::toupper` in the "C" locale: `a`..`z` go to `A`..`Z`, every other
character is unchanged. -/
def toupper (c : Char) : Char := c.toUpper

/-- The call `std::transform(str.begin(), str.end(), str.begin(), ::toupper)`. -/
def transformToupper (str : List Char) : List Char := str.map toupper

/-- The member `std::string::find(pat)`: the first position at which `pat` occurs in `s`,
`none` for `npos`. -/
def find (s pat : List Char) : Option Nat :=
  if pat.isPrefixOf s then some 0
  else match s with
    | [] => none
    | _ :: t => (find t pat).map (· + 1)

/-- The member `std::string::substr(pos, count)`: throws when `pos` is beyond the end,
otherwise the `count` characters from `pos` on, or as many as there are. -/
def substr (s : List Char) (pos count : Nat) : Except Fault (List Char) :=
  if pos > s.length then .error .substrOutOfRange
  else .ok ((s.drop pos).take (min count (s.length - pos)))

/-- One call `getline(stream, str, delim)` on the unread rest of the stream: it fails
when nothing is left to read; otherwise it yields the characters before the first `delim`
(all of them when there is none) and the rest of the stream after that `delim`. -/
def getline (stream : List Char) (delim : Char) : Option (List Char × List Char) :=
  match stream with
  | [] => none
  | _ :: _ => some (stream.takeWhile (· ≠ delim), (stream.dropWhile (· ≠ delim)).drop 1)

/-- The loop `while (getline(stream, str, '/')) path.push_back(str);`, run for at most
`fuel` iterations. -/
def getlineLoop : Nat → List Char → List (List Char) → List (List Char)
  | 0, _, path => path
  | fuel + 1, stream, path =>
    match getline stream '/' with
    | none => path
    | some (str, rest) => getlineLoop fuel rest (path ++ [str])

/-- The vector `path` of `getNormalHeader` after its first loop.  Every successful
`getline` reads at least one character, so `length + 1` iterations exhaust the stream. -/
def splitPath (fullNamePath : List Char) : List (List Char) :=
  getlineLoop (fullNamePath.length + 1) fullNamePath []

/-! ## Header formatter -/

/-- The call `back()` on a vector. -/
def back (v : List (List Char)) : Except Fault (List Char) :=
  match v.getLast? with
  | none => .error .emptyBack
  | some x => .ok x

/-- The call `pop_back()` on a vector. -/
def pop_back (v : List (List Char)) : Except Fault (List (List Char)) :=
  match v with
  | [] => .error .emptyBack
  | _ :: _ => .ok v.dropLast

/-- The local variables of the second loop of `getNormalHeader`. -/
structure HeaderState where
  /-- the vector `path` -/
  path : List (List Char)
  /-- the accumulated string `str` -/
  str : List Char
  /-- the vector of opening brackets (`prefix` in the source) -/
  prefixes : List (List Char)
  /-- the vector of closing brackets (`postfix` in the source) -/
  postfixes : List (List Char)
  deriving DecidableEq, Repr

/-- The statement `if (seg.find("auv") != npos) seg = seg.substr(4, int(seg.size() - 4));`
on the segment `seg = path[path.size() - i]`: the new value of the segment.  For a segment
of at least 4 characters the count is the number of characters after the fourth; for a
shorter one the unsigned subtraction wraps, but `substr` throws before it looks at the
count. -/
def stripSegment (seg : List Char) : Except Fault (List Char) :=
  if find seg "auv".toList ≠ none then substr seg 4 (seg.length - 4) else .ok seg

/-- The body of the loop `for (int i = length; i != 0; --i)` at the value `i` of the
counter.  The index `path.size() - i` is unsigned: when `i` exceeds the size it wraps
around to a value far beyond the size.  The source does not check the index: such a read
is undefined behaviour, the compiled code goes on after it and may return a header.  The
embedding stops there with `indexOutOfRange`, which says that the behaviour is undefined
from there on, not that the call fails.  The result is the state after the body;
`continue` leaves the state as it is. -/
def headerStep (i : Nat) (st : HeaderState) : Except Fault HeaderState :=
  if i ≤ st.path.length then
    match st.path[st.path.length - i]? with
    | none => .error .indexOutOfRange
    | some seg =>
      if "src".toList = seg ∨ "include".toList = seg then
        .ok st
      else do
        let seg2 ← stripSegment seg
        let path2 := st.path.set (st.path.length - i) seg2
        let opening ← back st.prefixes
        let closing ← back st.postfixes
        let str2 := st.str ++ (opening ++ seg2 ++ closing)
        let prefixes2 ← pop_back st.prefixes
        let postfixes2 ← pop_back st.postfixes
        pure ⟨path2, transformToupper str2, prefixes2, postfixes2⟩
  else
    .error .indexOutOfRange

/-- The loop `for (int i = length; i != 0; --i)` started with the counter at `i`. -/
def headerLoop : Nat → HeaderState → Except Fault HeaderState
  | 0, st => .ok st
  | i + 1, st =>
    match headerStep (i + 1) st with
    | .error e => .error e
    | .ok st2 => headerLoop i st2

/-- The function `getNormalHeader(fullNamePath, length)`. -/
def getNormalHeader (fullNamePath : List Char) (length : Int) : Except Fault (List Char) :=
  if length > -1 then
    match headerLoop length.toNat
        ⟨splitPath fullNamePath, [],
          ["<".toList, "(".toList, "[".toList], [">".toList, ")".toList, "]".toList]⟩ with
    | .error e => .error e
    | .ok st => .ok st.str
  else
    .error .assertion

/-- The projection of the result of the loop to the string `str`. -/
def resultStr (r : Except Fault HeaderState) : Except Fault (List Char) :=
  match r with
  | .error e => .error e
  | .ok st => .ok st.str

/-! ### The header as a function of the walked segments -/

/-- The loop of `getNormalHeader` seen from the segments it walks: `walk w str pre post`
is the string the loop ends with when it still has the segments `w` to visit, has
accumulated `str` and has the brackets `pre` and `post` left. -/
def walk : List (List Char) → List Char → List (List Char) → List (List Char) →
    Except Fault (List Char)
  | [], str, _, _ => .ok str
  | seg :: rest, str, pre, post =>
    if "src".toList = seg ∨ "include".toList = seg then
      walk rest str pre post
    else
      match stripSegment seg with
      | .error e => .error e
      | .ok seg2 =>
        match back pre, back post, pop_back pre, pop_back post with
        | .ok opening, .ok closing, .ok pre2, .ok post2 =>
          walk rest (transformToupper (str ++ (opening ++ seg2 ++ closing))) pre2 post2
        | _, _, _, _ => .error .emptyBack

/-- The loop of `getNormalHeader` with the call of `std::transform` taken out of its body:
the accumulated string is left as it is concatenated. -/
def walkPlain : List (List Char) → List Char → List (List Char) → List (List Char) →
    Except Fault (List Char)
  | [], str, _, _ => .ok str
  | seg :: rest, str, pre, post =>
    if "src".toList = seg ∨ "include".toList = seg then
      walkPlain rest str pre post
    else
      match stripSegment seg with
      | .error e => .error e
      | .ok seg2 =>
        match back pre, back post, pop_back pre, pop_back post with
        | .ok opening, .ok closing, .ok pre2, .ok post2 =>
          walkPlain rest (str ++ (opening ++ seg2 ++ closing)) pre2 post2
        | _, _, _, _ => .error .emptyBack

/-- The result of a call with `f` applied to the value it returns, if it returns one. -/
def mapResult (f : List Char → List Char) (r : Except Fault (List Char)) :
    Except Fault (List Char) :=
  match r with
  | .error e => .error e
  | .ok s => .ok (f s)

/-! ### The header in the words of the specification -/

/-- The last `n` segments of a path, in path order. -/
def lastSegments (n : Nat) (segs : List (List Char)) : List (List Char) :=
  segs.drop (segs.length - n)

/-- A segment is kept when it equals neither reserved directory name. -/
def isKept (seg : List Char) : Bool :=
  decide (seg ≠ "src".toList ∧ seg ≠ "include".toList)

/-- The kept segments among `segs`, in order. -/
def keptSegments (segs : List (List Char)) : List (List Char) := segs.filter isKept

/-- A segment contains the reserved infix. -/
def containsAuv (seg : List Char) : Bool := decide ("auv".toList <:+: seg)

/-- A segment that contains the reserved infix loses its first 4 characters. -/
def stripAuv (seg : List Char) : List Char := if containsAuv seg then seg.drop 4 else seg

/-- The bracket pairs in the order in which the loop hands them out. -/
def bracketPairs : List (List Char × List Char) :=
  [("[".toList, "]".toList), ("(".toList, ")".toList), ("<".toList, ">".toList)]

/-- The concatenation of the segments, each wrapped in the bracket pair of its position. -/
def wrapAll : List (List Char × List Char) → List (List Char) → List Char
  | (opening, closing) :: pairs, seg :: segs => opening ++ seg ++ closing ++ wrapAll pairs segs
  | _, _ => []

/-- The kept segments with the bracket of their position around each: the first in
square brackets, the second in round brackets, the third in angle brackets. -/
def bracketed : List (List Char) → List Char
  | [] => []
  | [a] => "[".toList ++ a ++ "]".toList
  | [a, b] => "[".toList ++ a ++ "]".toList ++ ("(".toList ++ b ++ ")".toList)
  | a :: b :: c :: _ =>
    "[".toList ++ a ++ "]".toList ++ ("(".toList ++ b ++ ")".toList)
      ++ ("<".toList ++ c ++ ">".toList)

/-- The function `std::to_string(int)`: the decimal digits, after a `-` for a negative
number. -/
def to_string (n : Int) : List Char :=
  if n < 0 then '-' :: (Nat.repr n.natAbs).toList else (Nat.repr n.natAbs).toList

/-- The macro `TEXT_FINE_DEBUG`. -/
def TEXT_FINE_DEBUG : Int := 0

/-- The function `getDebugHeader(filepath, function, line)`; `getNormalHeader` is called
with its default `length = 4`. -/
def getDebugHeader (filepath function : List Char) (line : Int) : Except Fault (List Char) :=
  match getNormalHeader filepath 4 with
  | .error e => .error e
  | .ok header =>
    .ok (header ++ " \x7bFunction: ".toList ++ function ++ "() Line: ".toList
      ++ to_string line ++ "\x7d".toList)

/-- The function `getHeader(filepath, function, line, fineDebug)`; the source gives
`fineDebug` the default `-1`, and calls `getNormalHeader` with its default `length = 4`. -/
def getHeader (filepath function : List Char) (line : Int) (fineDebug : Int) :
    Except Fault (List Char) :=
  let fineDebug2 := if fineDebug = -1 then TEXT_FINE_DEBUG else fineDebug
  if fineDebug2 ≠ 0 then getDebugHeader filepath function line
  else getNormalHeader filepath 4

/-! ## Numeric-to-string helper -/

/-- The least value of an `int`. -/
def INT_MIN : Int := -2147483648

/-- The greatest value of an `int`. -/
def INT_MAX : Int := 2147483647

/-- The result of an `int` operation: the mathematical result when it fits, a fault
(signed overflow is undefined) when it does not. -/
def intResult (x : Int) : Except Fault Int :=
  if INT_MIN ≤ x ∧ x ≤ INT_MAX then .ok x else .error .intOverflow

/-- The string literal that `itoa` indexes: 71 characters. -/
def digitTable : List Char :=
  "zyxwvutsrqponmlkjihgfedcba9876543210123456789abcdefghijklmnopqrstuvwxyz".toList

/-- The read `digitTable[index]`; only the 71 characters of the literal count as in range. -/
def tableAt (index : Int) : Except Fault Char :=
  if 0 ≤ index then
    match digitTable[index.toNat]? with
    | some c => .ok c
    | none => .error .tableOutOfRange
  else .error .tableOutOfRange

/-- The loop `do { ... } while (value);` of `itoa`, run for at most `fuel` iterations, on
the current `value` and the characters written so far.  It yields the last `tmp_value` and
the characters written.  The division `/` of C++ truncates: it is `Int.tdiv`. -/
def itoaLoop : Nat → Int → Int → List Char → Except Fault (Int × List Char)
  | 0, _, _, _ => .error .outOfFuel
  | fuel + 1, value, base, buf => do
    let tmp_value := value
    let value2 ← intResult (Int.tdiv value base)
    let product ← intResult (value2 * base)
    let offset ← intResult (tmp_value - product)
    let index ← intResult (35 + offset)
    let c ← tableAt index
    if value2 ≠ 0 then itoaLoop fuel value2 base (buf ++ [c])
    else pure (tmp_value, buf ++ [c])

/-- The loop `while (ptr1 < ptr) { tmp_char = *ptr; *ptr-- = *ptr1; *ptr1++ = tmp_char; }`
on the buffer, with the two pointers as indices; the recursion follows `ptr`, which goes
down by one in every iteration. -/
def reverseLoop (buf : List Char) (ptr1 : Nat) : Nat → List Char
  | 0 => buf
  | ptr + 1 =>
    if ptr1 < ptr + 1 then
      let tmp_char := buf.getD (ptr + 1) '\x00'
      let buf2 := buf.set (ptr + 1) (buf.getD ptr1 '\x00')
      let buf3 := buf2.set ptr1 tmp_char
      reverseLoop buf3 (ptr1 + 1) ptr
    else buf

/-- The function `itoa(value, result, base)` with its digit loop limited to `fuel`
iterations; the result is the string left in the buffer `result`, without its terminator. -/
def itoaFuel (fuel : Nat) (value base : Int) : Except Fault (List Char) :=
  if base < 2 ∨ base > 36 then .ok []
  else
    match itoaLoop fuel value base [] with
    | .error e => .error e
    | .ok (tmp_value, buf) =>
      let buf2 := if tmp_value < 0 then buf ++ ['-'] else buf
      .ok (reverseLoop buf2 0 (buf2.length - 1))

/-- The function `itoa(value, result, base)`.  An `int` has 32 bits and a division by a
base of at least 2 halves the value, so 32 iterations of the digit loop are enough. -/
def itoa (value base : Int) : Except Fault (List Char) := itoaFuel 32 value base

/-- The digit character of the digit `d`: `0`..`9`, then `a`..`z`. -/
def digitChar (d : Nat) : Char :=
  if d < 10 then Char.ofNat ('0'.toNat + d) else Char.ofNat ('a'.toNat + (d - 10))

/-- The textual representation of `value` in base `base`, in the words of the
specification: a `-` exactly for a negative value, then the digits of the absolute value,
most significant first, `0` alone for zero. -/
def numeral (value : Int) (base : Nat) : List Char :=
  (if value < 0 then ['-'] else [])
    ++ (if value = 0 then ['0'] else ((Nat.digits base value.natAbs).reverse.map digitChar))

/-- The characters the digit loop writes for the absolute value `n`, least significant
first. -/
def loopDigits (base n : Nat) : List Char :=
  if n = 0 then ['0'] else (Nat.digits base n).map digitChar

/-- The index `35 + (tmp_value - value * base)` that an iteration of the digit loop computes
from its `tmp_value`, where `value` is by then `tmp_value / base`. -/
def tableIndex (tmp_value base : Int) : Int :=
  35 + (tmp_value - Int.tdiv tmp_value base * base)

/-- The values that `tmp_value` takes in the successive iterations of the digit loop of
`itoa`, for at most `fuel` iterations, with no check of the arithmetic. -/
def itoaIterations : Nat → Int → Int → List Int
  | 0, _, _ => []
  | fuel + 1, value, base =>
    value :: (if Int.tdiv value base ≠ 0 then itoaIterations fuel (Int.tdiv value base) base
      else [])

/-- The value of a digit character: `0`..`9` are 0 to 9, `a`..`z` are 10 to 35. -/
def digitValue (c : Char) : Option Nat :=
  if '0'.toNat ≤ c.toNat ∧ c.toNat ≤ '9'.toNat then some (c.toNat - '0'.toNat)
  else if 'a'.toNat ≤ c.toNat ∧ c.toNat ≤ 'z'.toNat then some (c.toNat - 'a'.toNat + 10)
  else none

/-- The number that a string of digits of the base, most significant first, stands for,
read on from the number `acc` of the digits before it; `none` when a character is not a
digit of the base. -/
def parseDigits (base : Nat) : List Char → Nat → Option Nat
  | [], acc => some acc
  | c :: rest, acc =>
    match digitValue c with
    | none => none
    | some d => if d < base then parseDigits base rest (acc * base + d) else none

/-- The integer that a signed numeral of the base stands for: an optional leading `-`, then
at least one digit. -/
def parseNumeral (base : Nat) (s : List Char) : Option Int :=
  if s.head? = some '-' then
    if s.tail = [] then none
    else
      match parseDigits base s.tail 0 with
      | none => none
      | some n => some (-(n : Int))
  else
    if s = [] then none
    else
      match parseDigits base s 0 with
      | none => none
      | some n => some (n : Int)

/-! ## Level and style tables -/

/-- The enumerator `ATTR_RESET` of `CsiCode`. -/
def ATTR_RESET : Int := 0
/-- The enumerator `ATTR_TEXT_BOLD` of `CsiCode`. -/
def ATTR_TEXT_BOLD : Int := 1
/-- The enumerator `FG_RED` of `CsiCode`. -/
def FG_RED : Int := 31
/-- The enumerator `FG_GREEN` of `CsiCode`. -/
def FG_GREEN : Int := 32
/-- The enumerator `FG_YELLOW` of `CsiCode`. -/
def FG_YELLOW : Int := 33
/-- The enumerator `FG_DEFAULT` of `CsiCode`. -/
def FG_DEFAULT : Int := 39

/-- The array `colorMap`. -/
def colorMap : List Int := [FG_GREEN, FG_DEFAULT, FG_YELLOW, FG_RED, FG_RED]

/-- The array `attributeMap`. -/
def attributeMap : List Int := [ATTR_RESET, ATTR_RESET, ATTR_RESET, ATTR_RESET, ATTR_TEXT_BOLD]

/-- The macro `__DEBUG__`. -/
def __DEBUG__ : Nat := 0
/-- The macro `__INFO__`. -/
def __INFO__ : Nat := 1
/-- The macro `__WARN__`. -/
def __WARN__ : Nat := 2
/-- The macro `__ERROR__`. -/
def __ERROR__ : Nat := 3
/-- The macro `__FATAL__`. -/
def __FATAL__ : Nat := 4

/-- The token `LEVEL` that the logging macros take. -/
inductive Level where
  | DEBUG : Level
  | INFO : Level
  | WARN : Level
  | ERROR : Level
  | FATAL : Level
  deriving DecidableEq, Repr

/-- The index `__##LEVEL##__`. -/
def Level.index : Level → Nat
  | .DEBUG => __DEBUG__
  | .INFO => __INFO__
  | .WARN => __WARN__
  | .ERROR => __ERROR__
  | .FATAL => __FATAL__

/-- The string `#LEVEL`. -/
def Level.name : Level → List Char
  | .DEBUG => "DEBUG".toList
  | .INFO => "INFO".toList
  | .WARN => "WARN".toList
  | .ERROR => "ERROR".toList
  | .FATAL => "FATAL".toList

/-- The read `colorMap[__##LEVEL##__]`. -/
def colorOf (level : Level) : Int := colorMap.getD level.index 0

/-- The read `attributeMap[__##LEVEL##__]`. -/
def attributeOf (level : Level) : Int := attributeMap.getD level.index 0

/-! ## Line composer -/

/-- The macro `SECONDS()` on a reading of the clock, a signed count of nanoseconds since
the epoch: `duration_cast` truncates. -/
def SECONDS (now : Int) : Int := Int.tdiv now 1000000000

/-- The macro `NANO_SECONDS()` on a reading of the clock, a signed count of nanoseconds
since the epoch: `%` of C++ is the remainder of the truncating division. -/
def NANO_SECONDS (now : Int) : Int := Int.tmod now 1000000000

/-- A field of minimum width `width`, as `printf` writes for `%5s` or `%11lu` and as a
stream writes after `std::setw`: the text is right-justified, the spaces go in front. -/
def padField (width : Nat) (text : List Char) : List Char :=
  List.replicate (width - text.length) ' ' ++ text

/-- The conversion `%d` of `printf`, and `<<` of a stream on a signed integer. -/
def formatSigned (n : Int) : List Char := to_string n

/-- The conversion `%lu` of `printf` on a 64-bit `long`: its bits read as unsigned. -/
def formatUnsignedLong (n : Int) : List Char :=
  (Nat.repr (n % 18446744073709551616).toNat).toList

/-- The text written by `__CSI_SINGLE_CODE__(X)` and by `__CSI_SINGLE_CODE_STREAM__(X)`. -/
def CSI_SINGLE_CODE (X : Int) : List Char :=
  "\x1b[".toList ++ formatSigned X ++ "m".toList

/-- The text written by `__CSI_CODE__(X, format, ...)` and by `__CSI_CODE_STREAM__(X, args)`
when `format, ...` or `args` produce `body`. -/
def CSI_CODE (X : Int) (body : List Char) : List Char :=
  "\x1b[".toList ++ formatSigned X ++ "m".toList ++ body
    ++ "\x1b[".toList ++ formatSigned ATTR_RESET ++ "m\n".toList

/-- The text written by the macro `LOG(LEVEL, VERBOSE, format, ...)`: `message` is what
`format, ...` produce, `clockS` and `clockN` are the readings of the clock that `SECONDS()`
and `NANO_SECONDS()` take, and `file`, `function`, `line` are `__BASE_FILE__`,
`__FUNCTION__`, `__LINE__`. -/
def LOG (LEVEL : Level) (VERBOSE : Int) (message : List Char) (clockS clockN : Int)
    (file function : List Char) (line : Int) : Except Fault (List Char) :=
  match getHeader file function line VERBOSE with
  | .error e => .error e
  | .ok header =>
    .ok (CSI_SINGLE_CODE (attributeOf LEVEL) ++ CSI_CODE (colorOf LEVEL)
      ("[".toList ++ padField 5 LEVEL.name ++ " ] [".toList
        ++ padField 11 (formatUnsignedLong (SECONDS clockS)) ++ ":".toList
        ++ padField 9 (formatUnsignedLong (NANO_SECONDS clockN)) ++ "] ".toList
        ++ header ++ " ".toList ++ message))

/-- The text written by the macro `LOG_STREAM(LEVEL, VERBOSE, args)`: `message` is what
the streamed `args` produce. -/
def LOG_STREAM (LEVEL : Level) (VERBOSE : Int) (message : List Char) (clockS clockN : Int)
    (file function : List Char) (line : Int) : Except Fault (List Char) :=
  match getHeader file function line VERBOSE with
  | .error e => .error e
  | .ok header =>
    .ok (CSI_SINGLE_CODE (attributeOf LEVEL) ++ CSI_CODE (colorOf LEVEL)
      ("[".toList ++ padField 5 LEVEL.name ++ " ] [".toList
        ++ padField 11 (formatSigned (SECONDS clockS)) ++ ":".toList
        ++ padField 9 (formatSigned (NANO_SECONDS clockN)) ++ "] ".toList
        ++ header ++ " ".toList ++ message))

/-- The macro `LOG_COND(LEVEL, cond, format, ...)`. -/
def LOG_COND (LEVEL : Level) (cond : Bool) (message : List Char) (clockS clockN : Int)
    (file function : List Char) (line : Int) : Except Fault (List Char) :=
  if cond then LOG LEVEL 0 message clockS clockN file function line else .ok []

/-- The macro `LOG_STREAM_COND(LEVEL, cond, args)`. -/
def LOG_STREAM_COND (LEVEL : Level) (cond : Bool) (message : List Char) (clockS clockN : Int)
    (file function : List Char) (line : Int) : Except Fault (List Char) :=
  if cond then LOG_STREAM LEVEL 0 message clockS clockN file function line else .ok []

/-- The macro `LOG_COND_FINE(LEVEL, cond, format, ...)`. -/
def LOG_COND_FINE (LEVEL : Level) (cond : Bool) (message : List Char) (clockS clockN : Int)
    (file function : List Char) (line : Int) : Except Fault (List Char) :=
  if cond then LOG LEVEL 1 message clockS clockN file function line else .ok []

/-- The macro `LOG_STREAM_COND_FINE(LEVEL, cond, args)`. -/
def LOG_STREAM_COND_FINE (LEVEL : Level) (cond : Bool) (message : List Char)
    (clockS clockN : Int) (file function : List Char) (line : Int) :
    Except Fault (List Char) :=
  if cond then LOG_STREAM LEVEL 1 message clockS clockN file function line else .ok []

/-! ### The line in the words of the specification -/

/-- A text right-padded with spaces to the width `width`: the spaces go behind. -/
def padRight (width : Nat) (text : List Char) : List Char :=
  text ++ List.replicate (width - text.length) ' '

/-- The line as the specification words it, with every field right-padded, for the
seconds and nanoseconds written as signed decimals. -/
def specLine (level : Level) (seconds nanoseconds : Int) (header message : List Char) :
    List Char :=
  "\x1b[".toList ++ formatSigned (attributeOf level) ++ "m".toList
    ++ "\x1b[".toList ++ formatSigned (colorOf level) ++ "m".toList
    ++ "[".toList ++ padRight 5 level.name ++ " ] [".toList
    ++ padRight 11 (formatSigned seconds) ++ ":".toList
    ++ padRight 9 (formatSigned nanoseconds) ++ "] ".toList
    ++ header ++ " ".toList ++ message ++ "\x1b[0m\n".toList

/-- The line as the macros write it, with every field right-justified; `seconds` and
`nanoseconds` are the two numbers already formatted. -/
def composedLine (level : Level) (seconds nanoseconds header message : List Char) :
    List Char :=
  "\x1b[".toList ++ formatSigned (attributeOf level) ++ "m".toList
    ++ "\x1b[".toList ++ formatSigned (colorOf level) ++ "m".toList
    ++ "[".toList ++ padField 5 level.name ++ " ] [".toList
    ++ padField 11 seconds ++ ":".toList
    ++ padField 9 nanoseconds ++ "] ".toList
    ++ header ++ " ".toList ++ message ++ "\x1b[0m\n".toList

/-! ## Lemmas on the header formatter -/

theorem getline_rest_length (stream str rest : List Char) (d : Char)
    (h : getline stream d = some (str, rest)) : rest.length < stream.length := by
  cases stream with
  | nil => simp [getline] at h
  | cons a t =>
    simp only [getline, Option.some.injEq, Prod.mk.injEq] at h
    rw [← h.2, List.length_drop]
    have h1 : (List.dropWhile (fun x => decide (x ≠ d)) (a :: t)).length ≤ (a :: t).length :=
      (List.dropWhile_sublist _).length_le
    simp only [List.length_cons] at h1 ⊢
    omega

/-- The first loop of `getNormalHeader` ends because `getline` fails, within one iteration
more than the path has characters: allowing more iterations changes nothing. -/
theorem getlineLoop_stable : ∀ (fuel fuel2 : Nat) (stream : List Char)
    (path : List (List Char)), stream.length < fuel → fuel ≤ fuel2 →
    getlineLoop fuel2 stream path = getlineLoop fuel stream path := by
  intro fuel
  induction fuel with
  | zero => intro _ _ _ h; omega
  | succ f ih =>
    intro fuel2 stream path hlt hle
    obtain ⟨f2, rfl⟩ : ∃ f2, fuel2 = f2 + 1 := ⟨fuel2 - 1, by omega⟩
    simp only [getlineLoop]
    cases hg : getline stream '/' with
    | none => rfl
    | some r =>
      obtain ⟨str, rest⟩ := r
      have := getline_rest_length stream str rest '/' hg
      exact ih f2 rest _ (by omega) (by omega)

theorem getlineLoop_eq_splitPath (fuel : Nat) (p : List Char) (h : p.length < fuel) :
    getlineLoop fuel p [] = splitPath p :=
  getlineLoop_stable (p.length + 1) fuel p [] (by omega) (by omega)

theorem back_eq_emptyBack {v : List (List Char)} {e : Fault} (h : back v = .error e) :
    e = .emptyBack := by
  unfold back at h
  split at h <;> simp_all

theorem pop_back_eq_emptyBack {v : List (List Char)} {e : Fault} (h : pop_back v = .error e) :
    e = .emptyBack := by
  unfold pop_back at h
  split at h <;> simp_all

/-- The loop of `getNormalHeader`, started with as many iterations left as `w` has
segments on a vector that ends with `w`, computes `walk w`. -/
theorem headerLoop_eq_walk : ∀ (w front : List (List Char)) (str : List Char)
    (pre post : List (List Char)),
    resultStr (headerLoop w.length ⟨front ++ w, str, pre, post⟩) = walk w str pre post := by
  intro w
  induction w with
  | nil => intro front str pre post; rfl
  | cons seg rest ih =>
    intro front str pre post
    have hlen : (front ++ seg :: rest).length - (rest.length + 1) = front.length := by
      simp
    have hle : rest.length + 1 ≤ (front ++ seg :: rest).length := by simp
    have hget : (front ++ seg :: rest)[front.length]? = some seg := by
      rw [List.getElem?_append_right (le_refl _)]; simp
    have hset : ∀ s2, (front ++ seg :: rest).set front.length s2 = (front ++ [s2]) ++ rest := by
      intro s2; simp
    have hkeep : front ++ seg :: rest = (front ++ [seg]) ++ rest := by simp
    simp only [List.length_cons, headerLoop, headerStep, walk, hlen, hle, if_true, hget]
    by_cases hres : "src".toList = seg ∨ "include".toList = seg
    · simp only [if_pos hres]
      rw [hkeep]; exact ih _ _ _ _
    · simp only [if_neg hres]
      cases hs : stripSegment seg with
      | error e => simp only [bind, Except.bind, resultStr]
      | ok seg2 =>
        simp only [bind, Except.bind]
        cases hb1 : back pre with
        | error e => cases back_eq_emptyBack hb1; simp [resultStr]
        | ok opening =>
          cases hb2 : back post with
          | error e => cases back_eq_emptyBack hb2; simp [resultStr]
          | ok closing =>
            cases hp1 : pop_back pre with
            | error e => cases pop_back_eq_emptyBack hp1; simp [resultStr]
            | ok pre2 =>
              cases hp2 : pop_back post with
              | error e => cases pop_back_eq_emptyBack hp2; simp [resultStr]
              | ok post2 =>
                simp only [pure, Except.pure, hset]
                exact ih _ _ _ _

theorem find_ne_none_iff (pat : List Char) : ∀ s : List Char,
    find s pat ≠ none ↔ pat <:+: s := by
  intro s
  induction s with
  | nil =>
    unfold find
    by_cases hp : pat.isPrefixOf [] = true
    · have : pat <+: [] := List.isPrefixOf_iff_prefix.mp hp
      simp [hp, this.isInfix]
    · have hp2 : ¬ pat <+: [] := fun h => hp (List.isPrefixOf_iff_prefix.mpr h)
      have hp3 : ¬ pat <:+: [] := by
        intro h
        apply hp2
        rw [List.infix_nil] at h
        rw [h]
      simp [hp, hp3]
  | cons a t ih =>
    unfold find
    by_cases hp : pat.isPrefixOf (a :: t) = true
    · have : pat <+: a :: t := List.isPrefixOf_iff_prefix.mp hp
      simp [hp, this.isInfix]
    · have hp2 : ¬ pat <+: a :: t := fun h => hp (List.isPrefixOf_iff_prefix.mpr h)
      rw [List.infix_cons_iff]
      simp only [hp, Bool.false_eq_true, if_false, ne_eq, Option.map_eq_none', hp2, false_or]
      exact ih

theorem containsAuv_iff (seg : List Char) :
    containsAuv seg = true ↔ find seg "auv".toList ≠ none := by
  rw [find_ne_none_iff]; simp [containsAuv]

/-- The statement on a segment succeeds unless the segment contains the infix and is
shorter than 4 characters, and then it strips the segment. -/
theorem stripSegment_ok (seg : List Char) (h : containsAuv seg = true → 4 ≤ seg.length) :
    stripSegment seg = .ok (stripAuv seg) := by
  unfold stripSegment stripAuv
  by_cases hc : containsAuv seg = true
  · have hf := (containsAuv_iff seg).mp hc
    have h4 := h hc
    rw [if_pos hf, if_pos hc]
    unfold substr
    rw [if_neg (by omega)]
    congr 1
    rw [Nat.min_self]
    apply List.take_of_length_le
    simp
  · have hf : ¬ find seg "auv".toList ≠ none := fun h => hc ((containsAuv_iff seg).mpr h)
    rw [if_neg hf, if_neg hc]

theorem stripSegment_error (seg : List Char) (hc : containsAuv seg = true)
    (h : seg.length < 4) : stripSegment seg = .error .substrOutOfRange := by
  unfold stripSegment
  rw [if_pos ((containsAuv_iff seg).mp hc)]
  unfold substr
  rw [if_pos (by omega)]

theorem toupper_idem (c : Char) : toupper (toupper c) = toupper c := by
  unfold toupper Char.toUpper
  by_cases h : c.toNat ≥ 97 ∧ c.toNat ≤ 122
  · simp only [h, and_self, if_true]
    have hfin : ∀ n : Fin 123, 97 ≤ n.val →
        ¬ ((Char.ofNat (n.val - 32)).toNat ≥ 97 ∧ (Char.ofNat (n.val - 32)).toNat ≤ 122) := by
      decide
    have := hfin ⟨c.toNat, by omega⟩ h.1
    simp only [this, if_false]
  · simp only [h, if_false]

theorem transformToupper_idem (s : List Char) :
    transformToupper (transformToupper s) = transformToupper s := by
  simp [transformToupper, toupper_idem]

theorem transformToupper_append (s t : List Char) :
    transformToupper (s ++ t) = transformToupper s ++ transformToupper t := by
  simp [transformToupper]

theorem wrapAll_nil_right (pairs : List (List Char × List Char)) : wrapAll pairs [] = [] := by
  cases pairs <;> rfl

theorem back_concat (v : List (List Char)) (x : List Char) : back (v ++ [x]) = .ok x := by
  simp [back]

theorem pop_back_concat (v : List (List Char)) (x : List Char) :
    pop_back (v ++ [x]) = .ok v := by
  unfold pop_back
  split
  · rename_i h; simp at h
  · simp

theorem isKept_false_iff (seg : List Char) :
    isKept seg = false ↔ ("src".toList = seg ∨ "include".toList = seg) := by
  unfold isKept
  rw [decide_eq_false_iff_not]
  constructor
  · intro h
    by_cases h1 : seg = "src".toList
    · exact Or.inl h1.symm
    · by_cases h2 : seg = "include".toList
      · exact Or.inr h2.symm
      · exact absurd ⟨h1, h2⟩ h
  · rintro (h | h) ⟨h1, h2⟩
    · exact h1 h.symm
    · exact h2 h.symm

theorem exists_concat_of_ne_nil (v : List (List Char)) (h : v ≠ []) :
    ∃ init x, v = init ++ [x] :=
  ⟨v.dropLast, v.getLast h, (List.dropLast_append_getLast h).symm⟩

/-- When the brackets left are enough for the kept segments and no kept segment makes
`substr` throw, the walk ends with the uppercased concatenation of what it had and the
wrapped kept segments, the brackets being handed out from the back of their vectors. -/
theorem walk_ok : ∀ (w : List (List Char)) (str : List Char) (pre post : List (List Char)),
    pre.length = post.length → (keptSegments w).length ≤ pre.length →
    (∀ s ∈ keptSegments w, containsAuv s = true → 4 ≤ s.length) →
    transformToupper str = str →
    walk w str pre post = .ok (transformToupper
      (str ++ wrapAll (List.zip pre.reverse post.reverse) ((keptSegments w).map stripAuv))) := by
  intro w
  induction w with
  | nil =>
    intro str pre post _ _ _ hup
    simp [walk, keptSegments, wrapAll_nil_right, hup]
  | cons seg rest ih =>
    intro str pre post hlen hk hauv hup
    by_cases hres : "src".toList = seg ∨ "include".toList = seg
    · have hkf : isKept seg = false := (isKept_false_iff seg).mpr hres
      have hks : keptSegments (seg :: rest) = keptSegments rest := by
        simp [keptSegments, List.filter_cons, hkf]
      rw [hks] at hk hauv ⊢
      simp only [walk, if_pos hres]
      exact ih str pre post hlen hk hauv hup
    · have hkt : isKept seg = true := by
        cases h : isKept seg with
        | true => rfl
        | false => exact absurd ((isKept_false_iff seg).mp h) hres
      have hks : keptSegments (seg :: rest) = seg :: keptSegments rest := by
        simp [keptSegments, List.filter_cons, hkt]
      rw [hks] at hk hauv ⊢
      have hpre : pre ≠ [] := by
        intro h; subst h; simp at hk
      have hpost : post ≠ [] := by
        intro h; subst h; simp at hlen; exact hpre hlen
      obtain ⟨pi, o, rfl⟩ := exists_concat_of_ne_nil pre hpre
      obtain ⟨qi, c, rfl⟩ := exists_concat_of_ne_nil post hpost
      have hstrip := stripSegment_ok seg (hauv seg (List.mem_cons_self _ _))
      simp only [walk, if_neg hres, hstrip, back_concat, pop_back_concat]
      rw [ih _ pi qi (by simpa using hlen) (by simpa using hk)
        (fun s hs => hauv s (List.mem_cons_of_mem _ hs)) (transformToupper_idem _)]
      congr 1
      simp only [List.reverse_append, List.reverse_cons, List.reverse_nil, List.nil_append,
        List.singleton_append, List.zip_cons_cons, List.map_cons, wrapAll,
        transformToupper_append, transformToupper_idem, List.append_assoc]

theorem splitPath_take_drop (segs : List (List Char)) (n : Nat) (h : n ≤ segs.length) :
    segs = segs.take (segs.length - n) ++ lastSegments n segs
    ∧ (lastSegments n segs).length = n := by
  unfold lastSegments
  refine ⟨(List.take_append_drop _ _).symm, ?_⟩
  simp; omega

/-- The function `getNormalHeader` on a non-negative `length` that does not exceed the
number of segments is the walk over the last `length` segments. -/
theorem getNormalHeader_eq_walk (p : List Char) (n : Nat) (h : n ≤ (splitPath p).length) :
    getNormalHeader p n = walk (lastSegments n (splitPath p)) []
      ["<".toList, "(".toList, "[".toList] [">".toList, ")".toList, "]".toList] := by
  obtain ⟨hsplit, hl⟩ := splitPath_take_drop (splitPath p) n h
  have hpos : (n : Int) > -1 := by omega
  unfold getNormalHeader
  rw [if_pos hpos, Int.toNat_ofNat]
  have := headerLoop_eq_walk (lastSegments n (splitPath p))
    ((splitPath p).take ((splitPath p).length - n)) []
    ["<".toList, "(".toList, "[".toList] [">".toList, ")".toList, "]".toList]
  rw [hl, ← hsplit] at this
  exact this

/-- The header of a path with at least `n` segments, at most 3 of the last `n` kept and
none of the kept ones both containing the infix and shorter than 4 characters. -/
theorem getNormalHeader_ok (p : List Char) (n : Nat) (h : n ≤ (splitPath p).length)
    (hk : (keptSegments (lastSegments n (splitPath p))).length ≤ 3)
    (hauv : ∀ s ∈ keptSegments (lastSegments n (splitPath p)),
      containsAuv s = true → 4 ≤ s.length) :
    getNormalHeader p n = .ok (transformToupper (wrapAll bracketPairs
      ((keptSegments (lastSegments n (splitPath p))).map stripAuv))) := by
  rw [getNormalHeader_eq_walk p n h,
    walk_ok _ [] ["<".toList, "(".toList, "[".toList] [">".toList, ")".toList, "]".toList]
      rfl hk hauv rfl]
  rfl

/-- Whatever the walk returns is a fixed point of uppercasing, provided the string it
started from is one. -/
theorem walk_upper : ∀ (w : List (List Char)) (str : List Char) (pre post : List (List Char))
    (r : List Char), transformToupper str = str → walk w str pre post = .ok r →
    transformToupper r = r := by
  intro w
  induction w with
  | nil =>
    intro str pre post r hup h
    simp only [walk, Except.ok.injEq] at h
    rw [← h]; exact hup
  | cons seg rest ih =>
    intro str pre post r hup h
    simp only [walk] at h
    split at h
    · exact ih _ _ _ _ hup h
    · split at h
      · exact absurd h (by simp)
      · split at h
        · exact ih _ _ _ _ (transformToupper_idem _) h
        · exact absurd h (by simp)

theorem headerLoop_too_long (n : Nat) (st : HeaderState) (h : st.path.length < n) :
    headerLoop n st = .error .indexOutOfRange := by
  cases n with
  | zero => omega
  | succ i =>
    have : ¬ (i + 1 ≤ st.path.length) := by omega
    simp [headerLoop, headerStep, this]

/-- Every header that `getNormalHeader` returns is a fixed point of uppercasing. -/
theorem getNormalHeader_upper (p : List Char) (n : Int) (r : List Char)
    (h : getNormalHeader p n = .ok r) : transformToupper r = r := by
  by_cases hn : n > -1
  · by_cases hlen : n.toNat ≤ (splitPath p).length
    · have hcast : ((n.toNat : Nat) : Int) = n := Int.toNat_of_nonneg (by omega)
      have := getNormalHeader_eq_walk p n.toNat hlen
      rw [hcast, h] at this
      exact walk_upper _ _ _ _ _ rfl this.symm
    · unfold getNormalHeader at h
      rw [if_pos hn, headerLoop_too_long _ _ (by simpa using hlen)] at h
      exact absurd h (by simp)
  · unfold getNormalHeader at h
    rw [if_neg hn] at h
    exact absurd h (by simp)

theorem back_ok_ne_nil {v : List (List Char)} {x : List Char} (h : back v = .ok x) :
    v ≠ [] := by
  intro hv
  subst hv
  simp [back] at h

theorem pop_back_ok {v v2 : List (List Char)} (h : pop_back v = .ok v2) :
    v2.length + 1 = v.length := by
  cases v with
  | nil => simp [pop_back] at h
  | cons a t =>
    simp only [pop_back, Except.ok.injEq] at h
    rw [← h]
    simp

theorem stripSegment_ok_length {seg seg2 : List Char} (h : stripSegment seg = .ok seg2)
    (hc : containsAuv seg = true) : 4 ≤ seg.length := by
  by_contra hlt
  rw [stripSegment_error seg hc (by omega)] at h
  exact absurd h (by simp)

/-- A walk that returns had brackets enough for its kept segments, and none of its kept
segments both contains the infix and is shorter than 4 characters. -/
theorem walk_ok_inv : ∀ (w : List (List Char)) (str : List Char) (pre post : List (List Char))
    (r : List Char), walk w str pre post = .ok r →
    (keptSegments w).length ≤ pre.length ∧ (keptSegments w).length ≤ post.length
    ∧ (∀ s ∈ keptSegments w, containsAuv s = true → 4 ≤ s.length) := by
  intro w
  induction w with
  | nil => intro str pre post r _; simp [keptSegments]
  | cons seg rest ih =>
    intro str pre post r h
    simp only [walk] at h
    by_cases hres : "src".toList = seg ∨ "include".toList = seg
    · have hkf : isKept seg = false := (isKept_false_iff seg).mpr hres
      have hks : keptSegments (seg :: rest) = keptSegments rest := by
        simp [keptSegments, List.filter_cons, hkf]
      rw [if_pos hres] at h
      rw [hks]
      exact ih _ _ _ _ h
    · have hkt : isKept seg = true := by
        cases hk : isKept seg with
        | true => rfl
        | false => exact absurd ((isKept_false_iff seg).mp hk) hres
      have hks : keptSegments (seg :: rest) = seg :: keptSegments rest := by
        simp [keptSegments, List.filter_cons, hkt]
      rw [if_neg hres] at h
      rw [hks]
      cases hs : stripSegment seg with
      | error e => rw [hs] at h; exact absurd h (by simp)
      | ok seg2 =>
        rw [hs] at h
        simp only at h
        split at h
        · rename_i opening closing pre2 post2 hb1 hb2 hp1 hp2
          obtain ⟨i1, i2, i3⟩ := ih _ _ _ _ h
          have l1 := pop_back_ok hp1
          have l2 := pop_back_ok hp2
          refine ⟨by simp only [List.length_cons]; omega,
            by simp only [List.length_cons]; omega, ?_⟩
          intro s hsmem hc
          rcases List.mem_cons.mp hsmem with rfl | hmem
          · exact stripSegment_ok_length hs hc
          · exact i3 s hmem hc
        · exact absurd h (by simp)

/-- Every header that `getNormalHeader` returns comes from a depth that is not negative
and not above the number of segments, with at most 3 kept segments among the walked ones,
none of them both containing the infix and shorter than 4 characters. -/
theorem getNormalHeader_ok_inv (p : List Char) (n : Int) (r : List Char)
    (h : getNormalHeader p n = .ok r) :
    0 ≤ n ∧ n.toNat ≤ (splitPath p).length
    ∧ (keptSegments (lastSegments n.toNat (splitPath p))).length ≤ 3
    ∧ (∀ s ∈ keptSegments (lastSegments n.toNat (splitPath p)),
        containsAuv s = true → 4 ≤ s.length) := by
  by_cases hn : n > -1
  · by_cases hlen : n.toNat ≤ (splitPath p).length
    · have hcast : ((n.toNat : Nat) : Int) = n := Int.toNat_of_nonneg (by omega)
      have hw := getNormalHeader_eq_walk p n.toNat hlen
      rw [hcast, h] at hw
      obtain ⟨i1, -, i3⟩ := walk_ok_inv _ _ _ _ _ hw.symm
      exact ⟨by omega, hlen, by simpa using i1, i3⟩
    · unfold getNormalHeader at h
      rw [if_pos hn, headerLoop_too_long _ _ (by simpa using hlen)] at h
      exact absurd h (by simp)
  · unfold getNormalHeader at h
    rw [if_neg hn] at h
    exact absurd h (by simp)

/-- A fixed point of uppercasing has no infix with a lowercase letter in it. -/
theorem no_lowercase_infix (r pat : List Char) (c : Char) (hr : transformToupper r = r)
    (hc : c ∈ pat) (hlow : toupper c ≠ c) : ¬ pat <:+: r := by
  intro hin
  have hmem : c ∈ r := hin.subset hc
  have hall : ∀ x ∈ r, toupper x = x := by
    intro x hx
    have h1 : r.map toupper = r.map id := by rw [List.map_id]; exact hr
    exact List.map_inj_left.mp h1 x hx
  exact hlow (hall c hmem)

theorem wrapAll_bracketPairs (segs : List (List Char)) (h : segs.length ≤ 3) :
    wrapAll bracketPairs segs = bracketed segs := by
  match segs, h with
  | [], _ => rfl
  | [a], _ => simp [wrapAll, bracketPairs, bracketed]
  | [a, b], _ => simp [wrapAll, bracketPairs, bracketed]
  | [a, b, c], _ => simp [wrapAll, bracketPairs, bracketed]
  | _ :: _ :: _ :: _ :: _, h => simp at h

theorem getHeader_normal (path function : List Char) (line : Int) :
    getHeader path function line 0 = getNormalHeader path 4 := by
  simp [getHeader]

theorem getHeader_fine (path function : List Char) (line : Int) (header : List Char)
    (h : getNormalHeader path 4 = .ok header) :
    getHeader path function line 1
      = .ok (header ++ " \x7bFunction: ".toList ++ function ++ "() Line: ".toList
          ++ to_string line ++ "\x7d".toList) := by
  simp [getHeader, getDebugHeader, h]

/-- Uppercasing after every kept segment, as the loop does, gives what uppercasing once at
the end gives, and fails where the loop without uppercasing fails. -/
theorem walk_eq_walkPlain : ∀ (w : List (List Char)) (str : List Char)
    (pre post : List (List Char)),
    walk w (transformToupper str) pre post
      = mapResult transformToupper (walkPlain w str pre post) := by
  intro w
  induction w with
  | nil => intro str pre post; rfl
  | cons seg rest ih =>
    intro str pre post
    simp only [walk, walkPlain]
    by_cases hres : "src".toList = seg ∨ "include".toList = seg
    · simp only [if_pos hres]; exact ih _ _ _
    · simp only [if_neg hres]
      cases hs : stripSegment seg with
      | error e => rfl
      | ok seg2 =>
        have hstr : ∀ t : List Char, transformToupper (transformToupper str ++ t)
            = transformToupper (str ++ t) := by
          intro t
          simp only [transformToupper_append, transformToupper_idem]
        generalize back pre = b1
        generalize back post = b2
        generalize pop_back pre = p1
        generalize pop_back post = p2
        cases b1 <;> cases b2 <;> cases p1 <;> cases p2 <;>
          first
          | rfl
          | (simp only [hstr]; exact ih _ _ _)

/-- When the brackets run out before the kept segments do, and no kept segment makes
`substr` throw, the walk ends in `back()` on an empty vector. -/
theorem walk_emptyBack : ∀ (w : List (List Char)) (str : List Char)
    (pre post : List (List Char)), pre.length = post.length →
    pre.length < (keptSegments w).length →
    (∀ s ∈ keptSegments w, containsAuv s = true → 4 ≤ s.length) →
    walk w str pre post = .error .emptyBack := by
  intro w
  induction w with
  | nil => intro str pre post _ h _; simp [keptSegments] at h
  | cons seg rest ih =>
    intro str pre post hlen hk hauv
    by_cases hres : "src".toList = seg ∨ "include".toList = seg
    · have hkf : isKept seg = false := (isKept_false_iff seg).mpr hres
      have hks : keptSegments (seg :: rest) = keptSegments rest := by
        simp [keptSegments, List.filter_cons, hkf]
      rw [hks] at hk hauv
      simp only [walk, if_pos hres]
      exact ih str pre post hlen hk hauv
    · have hkt : isKept seg = true := by
        cases h : isKept seg with
        | true => rfl
        | false => exact absurd ((isKept_false_iff seg).mp h) hres
      have hks : keptSegments (seg :: rest) = seg :: keptSegments rest := by
        simp [keptSegments, List.filter_cons, hkt]
      rw [hks] at hk hauv
      have hstrip := stripSegment_ok seg (hauv seg (List.mem_cons_self _ _))
      simp only [walk, if_neg hres, hstrip]
      by_cases hpre : pre = []
      · subst hpre
        simp [back, pop_back]
      · have hpost : post ≠ [] := by
          intro h; subst h; simp at hlen; exact hpre hlen
        obtain ⟨pi, o, rfl⟩ := exists_concat_of_ne_nil pre hpre
        obtain ⟨qi, c, rfl⟩ := exists_concat_of_ne_nil post hpost
        simp only [back_concat, pop_back_concat]
        exact ih _ pi qi (by simpa using hlen) (by simp at hk ⊢; omega)
          (fun s hs => hauv s (List.mem_cons_of_mem _ hs))

theorem getNormalHeader_negative (p : List Char) (n : Int) (h : n < 0) :
    getNormalHeader p n = .error .assertion := by
  unfold getNormalHeader
  rw [if_neg (by omega)]

theorem getNormalHeader_too_long (p : List Char) (n : Int) (h0 : 0 ≤ n)
    (h : ((splitPath p).length : Int) < n) :
    getNormalHeader p n = .error .indexOutOfRange := by
  unfold getNormalHeader
  rw [if_pos (by omega), headerLoop_too_long _ _ (by simp only; omega)]

theorem toupper_fixed_not_lower (c : Char) (h : toupper c = c) :
    ¬ (97 ≤ c.toNat ∧ c.toNat ≤ 122) := by
  intro hr
  unfold toupper Char.toUpper at h
  simp only [ge_iff_le, hr, and_self, if_true] at h
  have hfin : ∀ n : Fin 123, 97 ≤ n.val → (Char.ofNat (n.val - 32)).toNat ≠ n.val := by
    decide
  have := hfin ⟨c.toNat, by omega⟩ hr.1
  apply this
  show (Char.ofNat (c.toNat - 32)).toNat = c.toNat
  rw [h]

theorem isLower_iff (c : Char) : c.isLower = true ↔ (97 ≤ c.toNat ∧ c.toNat ≤ 122) := by
  simp [Char.isLower, Char.toNat, UInt32.le_def, Fin.le_def]
  rfl

theorem kept_length_le (n : Nat) (segs : List (List Char)) :
    (keptSegments (lastSegments n segs)).length ≤ n
    ∧ (keptSegments (lastSegments n segs)).length ≤ segs.length := by
  have h1 : (keptSegments (lastSegments n segs)).length ≤ (lastSegments n segs).length :=
    List.length_filter_le _ _
  have h2 : (lastSegments n segs).length = segs.length - (segs.length - n) := by
    simp [lastSegments]
  omega

theorem kept_take_subset (k : Nat) (segs : List (List Char)) :
    (keptSegments (segs.take k)).length ≤ k
    ∧ ∀ s ∈ keptSegments (segs.take k), s ∈ keptSegments segs := by
  constructor
  · have h1 : (keptSegments (segs.take k)).length ≤ (segs.take k).length :=
      List.length_filter_le _ _
    have h2 : (segs.take k).length ≤ k := by simp
    omega
  · intro s hs
    unfold keptSegments at hs ⊢
    rw [List.mem_filter] at hs ⊢
    exact ⟨List.mem_of_mem_take hs.1, hs.2⟩

/-! ## Lemmas on the numeric-to-string helper -/

theorem tableAt_plus : ∀ r : Fin 36, tableAt (35 + (r.val : Int)) = .ok (digitChar r.val) := by
  decide

theorem tableAt_minus : ∀ r : Fin 36, tableAt (35 - (r.val : Int)) = .ok (digitChar r.val) := by
  decide

theorem intResult_ok {x : Int} (h1 : INT_MIN ≤ x) (h2 : x ≤ INT_MAX) : intResult x = .ok x := by
  simp [intResult, h1, h2]

/-- The quotient and the remainder of the truncating division of `±n` by `b`. -/
theorem tdiv_facts (n b : Nat) :
    Int.tdiv (n : Int) b = ((n / b : Nat) : Int)
    ∧ Int.tdiv (-(n : Int)) b = -((n / b : Nat) : Int)
    ∧ Int.tdiv (n : Int) b * b = ((n / b * b : Nat) : Int)
    ∧ Int.tdiv (-(n : Int)) b * b = -((n / b * b : Nat) : Int) := by
  have h1 : Int.tdiv (n : Int) b = ((n / b : Nat) : Int) := (Int.ofNat_tdiv n b).symm
  have h2 : Int.tdiv (-(n : Int)) b = -((n / b : Nat) : Int) := by rw [Int.neg_tdiv, h1]
  refine ⟨h1, h2, ?_, ?_⟩
  · rw [h1]; push_cast; rfl
  · rw [h2]; push_cast; ring

/-- One pass through the body of the digit loop, for a value `v` of absolute value `n`. -/
theorem itoa_body (v : Int) (b : Nat) (hlo : INT_MIN ≤ v) (hhi : v ≤ INT_MAX)
    (hb2 : 2 ≤ b) (hb36 : b ≤ 36) :
    intResult (Int.tdiv v b) = .ok (Int.tdiv v b)
    ∧ intResult (Int.tdiv v b * b) = .ok (Int.tdiv v b * b)
    ∧ intResult (v - Int.tdiv v b * b) = .ok (v - Int.tdiv v b * b)
    ∧ intResult (35 + (v - Int.tdiv v b * b)) = .ok (35 + (v - Int.tdiv v b * b))
    ∧ tableAt (35 + (v - Int.tdiv v b * b)) = .ok (digitChar (v.natAbs % b))
    ∧ (Int.tdiv v b).natAbs = v.natAbs / b
    ∧ (Int.tdiv v b ≠ 0 → (Int.tdiv v b < 0 ↔ v < 0)) := by
  simp only [INT_MIN, INT_MAX] at hlo hhi
  obtain ⟨n, rfl | rfl⟩ := Int.eq_nat_or_neg v
  · obtain ⟨htd, -, hprod, -⟩ := tdiv_facts n b
    have hdm : n / b * b + n % b = n := Nat.div_add_mod' _ _
    have hr : n % b < b := Nat.mod_lt _ (by omega)
    have hq : n / b ≤ n := Nat.div_le_self _ _
    have habs : (n : Int).natAbs = n := Int.natAbs_ofNat n
    rw [hprod, htd, habs]
    generalize n / b = q at *
    generalize n % b = r at *
    generalize hqb : q * b = p at *
    have hoff : (n : Int) - (p : Int) = (r : Int) := by omega
    rw [hoff]
    refine ⟨?_, ?_, ?_, ?_, ?_, ?_, ?_⟩
    · apply intResult_ok <;> simp only [INT_MIN, INT_MAX] <;> omega
    · apply intResult_ok <;> simp only [INT_MIN, INT_MAX] <;> omega
    · apply intResult_ok <;> simp only [INT_MIN, INT_MAX] <;> omega
    · apply intResult_ok <;> simp only [INT_MIN, INT_MAX] <;> omega
    · exact tableAt_plus ⟨r, by omega⟩
    · exact Int.natAbs_ofNat q
    · intro _; omega
  · obtain ⟨-, htd, -, hprod⟩ := tdiv_facts n b
    have hdm : n / b * b + n % b = n := Nat.div_add_mod' _ _
    have hr : n % b < b := Nat.mod_lt _ (by omega)
    have hq : n / b ≤ n := Nat.div_le_self _ _
    have habs : (-(n : Int)).natAbs = n := by rw [Int.natAbs_neg]; exact Int.natAbs_ofNat n
    rw [hprod, htd, habs]
    generalize n / b = q at *
    generalize n % b = r at *
    generalize hqb : q * b = p at *
    have hoff : -(n : Int) - -(p : Int) = -(r : Int) := by omega
    have hoff2 : (35 : Int) + -(r : Int) = 35 - (r : Int) := by omega
    rw [hoff]
    refine ⟨?_, ?_, ?_, ?_, ?_, ?_, ?_⟩
    · apply intResult_ok <;> simp only [INT_MIN, INT_MAX] <;> omega
    · apply intResult_ok <;> simp only [INT_MIN, INT_MAX] <;> omega
    · apply intResult_ok <;> simp only [INT_MIN, INT_MAX] <;> omega
    · apply intResult_ok <;> simp only [INT_MIN, INT_MAX] <;> omega
    · rw [hoff2]; exact tableAt_minus ⟨r, by omega⟩
    · rw [Int.natAbs_neg]; exact Int.natAbs_ofNat q
    · intro h; omega

theorem loopDigits_unfold (b n : Nat) (hb2 : 2 ≤ b) :
    loopDigits b n = digitChar (n % b) :: (if n / b = 0 then [] else loopDigits b (n / b)) := by
  unfold loopDigits
  by_cases hn : n = 0
  · subst hn; simp; decide
  · rw [if_neg hn, Nat.digits_def' (by omega) (by omega)]
    by_cases hq : n / b = 0
    · simp [hq]
    · simp [hq]

/-- The digit loop on a value within `int` range, given at least as many iterations as the
value has bits: it ends, writes the digits of the absolute value least significant first,
and its last `tmp_value` has the sign of the value. -/
theorem itoaLoop_spec (b : Nat) (hb2 : 2 ≤ b) (hb36 : b ≤ 36) :
    ∀ (fuel : Nat) (v : Int) (buf : List Char), INT_MIN ≤ v → v ≤ INT_MAX →
      0 < fuel → v.natAbs < 2 ^ fuel →
      ∃ tmp, itoaLoop fuel v b buf = .ok (tmp, buf ++ loopDigits b v.natAbs)
        ∧ (tmp < 0 ↔ v < 0) := by
  intro fuel
  induction fuel with
  | zero => intro v buf _ _ h; omega
  | succ k ih =>
    intro v buf hlo hhi _ hlt
    obtain ⟨h1, h2, h3, h4, h5, habs, hsign⟩ := itoa_body v b hlo hhi hb2 hb36
    have hq : v.natAbs / b < 2 ^ k := by
      apply Nat.div_lt_of_lt_mul
      have : 2 * 2 ^ k ≤ b * 2 ^ k := Nat.mul_le_mul_right _ hb2
      rw [pow_succ] at hlt
      omega
    have hqle : v.natAbs / b ≤ v.natAbs := Nat.div_le_self _ _
    rw [loopDigits_unfold b v.natAbs hb2]
    by_cases hz : Int.tdiv v b = 0
    · have hz2 : v.natAbs / b = 0 := by rw [← habs, hz]; rfl
      refine ⟨v, ?_, Iff.rfl⟩
      simp only [itoaLoop, h1, h2, h3, h4, h5, bind, Except.bind, pure, Except.pure]
      simp [hz, hz2]
    · have hz2 : v.natAbs / b ≠ 0 := by
        rw [← habs]; exact fun h => hz (Int.natAbs_eq_zero.mp h)
      have hk : 0 < k := by
        rcases Nat.eq_zero_or_pos k with h | h
        · subst h; simp at hq; exact absurd hq hz2
        · exact h
      simp only [INT_MIN, INT_MAX] at hlo hhi
      obtain ⟨tmp, hloop, htmp⟩ := ih (Int.tdiv v b) (buf ++ [digitChar (v.natAbs % b)])
        (by simp only [INT_MIN]; omega) (by simp only [INT_MAX]; omega) hk (by rw [habs]; exact hq)
      refine ⟨tmp, ?_, htmp.trans (hsign hz)⟩
      simp only [itoaLoop, h1, h2, h3, h4, h5, bind, Except.bind, pure, Except.pure]
      simp [hz, hz2, hloop, habs]

theorem getD_append_mid (a : List Char) (x : Char) (c : List Char) (d : Char) :
    (a ++ x :: c).getD a.length d = x := by
  induction a with
  | nil => rfl
  | cons h t ih => simpa using ih

theorem set_append_mid (a : List Char) (x y : Char) (c : List Char) :
    (a ++ x :: c).set a.length y = a ++ y :: c := by
  induction a with
  | nil => rfl
  | cons h t ih => simp [ih]

/-- The swapping loop reverses the part of the buffer between its two pointers. -/
theorem reverseLoop_mid : ∀ (n : Nat) (m a c : List Char), m.length = n →
    reverseLoop (a ++ m ++ c) a.length (a.length + m.length - 1) = a ++ m.reverse ++ c := by
  intro n
  induction n using Nat.strong_induction_on with
  | _ n ih =>
    intro m a c hlen
    match m, hlen with
    | [], _ =>
      cases hp : a.length + ([] : List Char).length - 1 with
      | zero => simp [reverseLoop]
      | succ p =>
        have : ¬ (a.length < p + 1) := by simp at hp; omega
        simp [reverseLoop, this]
    | [x], _ =>
      cases hp : a.length + [x].length - 1 with
      | zero => simp [reverseLoop]
      | succ p =>
        have : ¬ (a.length < p + 1) := by simp at hp; omega
        simp [reverseLoop, this]
    | x :: z :: t, hlen =>
      obtain ⟨mid, y, hmid⟩ : ∃ mid y, z :: t = mid ++ [y] :=
        ⟨(z :: t).dropLast, (z :: t).getLast (by simp), (List.dropLast_append_getLast _).symm⟩
      rw [hmid]
      have hml : mid.length + 1 = t.length + 1 := by
        have := congrArg List.length hmid
        simp at this; omega
      have hp : a.length + (x :: (mid ++ [y])).length - 1 = (a.length + mid.length) + 1 := by
        simp; omega
      rw [hp]
      have hlt : a.length < a.length + mid.length + 1 := by omega
      have e1 : a ++ x :: (mid ++ [y]) ++ c = (a ++ x :: mid) ++ y :: c := by simp
      have e1len : a.length + mid.length + 1 = (a ++ x :: mid).length := by simp; omega
      have g1 : (a ++ x :: (mid ++ [y]) ++ c).getD (a.length + mid.length + 1) '\x00' = y := by
        rw [e1, e1len]; exact getD_append_mid _ _ _ _
      have e2 : a ++ x :: (mid ++ [y]) ++ c = a ++ x :: (mid ++ [y] ++ c) := by simp
      have g2 : (a ++ x :: (mid ++ [y]) ++ c).getD a.length '\x00' = x := by
        rw [e2]; exact getD_append_mid _ _ _ _
      have s1 : (a ++ x :: (mid ++ [y]) ++ c).set (a.length + mid.length + 1) x
          = a ++ x :: (mid ++ x :: c) := by
        rw [e1, e1len, set_append_mid]; simp
      have s2 : (a ++ x :: (mid ++ x :: c)).set a.length y = (a ++ [y]) ++ mid ++ (x :: c) := by
        rw [set_append_mid]; simp
      have hrec := ih mid.length (by simp at hlen; omega) mid (a ++ [y]) (x :: c) rfl
      have hidx : (a ++ [y]).length + mid.length - 1 = a.length + mid.length := by simp
      rw [hidx] at hrec
      have hl1 : (a ++ [y]).length = a.length + 1 := by simp
      rw [hl1] at hrec
      simp only [reverseLoop, hlt, if_true, g1, g2, s1, s2]
      rw [hrec]
      simp

theorem reverseLoop_all (buf : List Char) :
    reverseLoop buf 0 (buf.length - 1) = buf.reverse := by
  have := reverseLoop_mid buf.length buf [] [] rfl
  simpa using this


theorem numeral_eq_reverse (v : Int) (b : Nat) :
    numeral v b = ((loopDigits b v.natAbs) ++ (if v < 0 then ['-'] else [])).reverse := by
  unfold numeral loopDigits
  by_cases hv : v = 0
  · subst hv; simp
  · have hn : v.natAbs ≠ 0 := fun h => hv (Int.natAbs_eq_zero.mp h)
    by_cases hneg : v < 0 <;> simp [hv, hn, hneg, List.map_reverse]

/-- With at least 32 iterations allowed, `itoa` returns the numeral of its value. -/
theorem itoaFuel_eq_numeral (fuel : Nat) (v : Int) (b : Nat) (hf : 32 ≤ fuel)
    (hlo : INT_MIN ≤ v) (hhi : v ≤ INT_MAX) (hb2 : 2 ≤ b) (hb36 : b ≤ 36) :
    itoaFuel fuel v b = .ok (numeral v b) := by
  have hpow : v.natAbs < 2 ^ fuel := by
    have h32 : (2 : Nat) ^ 32 ≤ 2 ^ fuel := Nat.pow_le_pow_right (by decide) hf
    simp only [INT_MIN, INT_MAX] at hlo hhi
    have : v.natAbs < 2 ^ 32 := by norm_num; omega
    omega
  obtain ⟨tmp, hloop, htmp⟩ :=
    itoaLoop_spec b hb2 hb36 fuel v [] hlo hhi (by omega) hpow
  have hbase : ¬ ((b : Int) < 2 ∨ (b : Int) > 36) := by omega
  unfold itoaFuel
  rw [if_neg hbase, hloop]
  simp only [List.nil_append, reverseLoop_all, numeral_eq_reverse]
  by_cases hneg : v < 0
  · simp [hneg, htmp.mpr hneg]
  · have : ¬ tmp < 0 := fun h => hneg (htmp.mp h)
    simp [hneg, this]

theorem digitChar_ne_zero : ∀ d : Fin 36, d.val ≠ 0 → digitChar d.val ≠ '0' := by decide

/-- The numeral of a non-zero value has no leading zero: after the sign comes a non-zero
digit. -/
theorem numeral_no_leading_zero (v : Int) (b : Nat) (hv : v ≠ 0) (hb2 : 2 ≤ b) (hb36 : b ≤ 36) :
    ∃ d rest, numeral v b = (if v < 0 then ['-'] else []) ++ digitChar d :: rest
      ∧ d ≠ 0 ∧ d < b ∧ digitChar d ≠ '0' := by
  have hn : v.natAbs ≠ 0 := fun h => hv (Int.natAbs_eq_zero.mp h)
  have hne : Nat.digits b v.natAbs ≠ [] := Nat.digits_ne_nil_iff_ne_zero.mpr hn
  have hlast := Nat.getLast_digit_ne_zero b hn
  have hlt : (Nat.digits b v.natAbs).getLast hne < b :=
    Nat.digits_lt_base (by omega) (List.getLast_mem hne)
  refine ⟨(Nat.digits b v.natAbs).getLast hne,
    ((Nat.digits b v.natAbs).dropLast.reverse.map digitChar), ?_, hlast, hlt, ?_⟩
  · unfold numeral
    rw [if_neg hv]
    congr 1
    conv_lhs => rw [← List.dropLast_append_getLast hne]
    simp
  · exact digitChar_ne_zero ⟨_, by omega⟩ hlast

theorem numeral_ne_nil (v : Int) (b : Nat) : numeral v b ≠ [] := by
  unfold numeral
  by_cases hv : v = 0
  · simp [hv]
  · have hn : v.natAbs ≠ 0 := fun h => hv (Int.natAbs_eq_zero.mp h)
    have hne : Nat.digits b v.natAbs ≠ [] := Nat.digits_ne_nil_iff_ne_zero.mpr hn
    simp [hv, hne]

theorem tableAt_ok_bounds {index : Int} {c : Char} (h : tableAt index = .ok c) :
    0 ≤ index ∧ index ≤ 70 ∧ digitTable.getD index.toNat '\x00' = c := by
  unfold tableAt at h
  split at h
  · rename_i h0
    split at h
    · rename_i c2 hc
      simp only [Except.ok.injEq] at h
      subst h
      have hlt : index.toNat < digitTable.length := by
        by_contra hge
        rw [List.getElem?_eq_none (by omega)] at hc
        exact absurd hc (by simp)
      have hlen : digitTable.length = 71 := by decide
      refine ⟨h0, by omega, ?_⟩
      rw [List.getD_eq_getElem?_getD, hc]
      rfl
    · exact absurd h (by simp)
  · exact absurd h (by simp)

/-- The successive values of `tmp_value`, for a value within `int` range and enough
iterations allowed: they stay within `int` range, more iterations add none, and the
characters the table gives for them are the digits written. -/
theorem itoaIterations_spec (b : Nat) (hb2 : 2 ≤ b) (hb36 : b ≤ 36) :
    ∀ (fuel : Nat) (v : Int), INT_MIN ≤ v → v ≤ INT_MAX → 0 < fuel → v.natAbs < 2 ^ fuel →
      (∀ t ∈ itoaIterations fuel v b, INT_MIN ≤ t ∧ t ≤ INT_MAX)
      ∧ (∀ fuel2, fuel ≤ fuel2 → itoaIterations fuel2 v b = itoaIterations fuel v b)
      ∧ (itoaIterations fuel v b).map
          (fun t => digitTable.getD (tableIndex t b).toNat '\x00') = loopDigits b v.natAbs
      ∧ (∀ t, (itoaIterations fuel v b).getLast? = some t → Int.tdiv t b = 0) := by
  intro fuel
  induction fuel with
  | zero => intro v _ _ h; omega
  | succ k ih =>
    intro v hlo hhi _ hlt
    obtain ⟨h1, h2, h3, h4, h5, habs, hsign⟩ := itoa_body v b hlo hhi hb2 hb36
    have hq : v.natAbs / b < 2 ^ k := by
      apply Nat.div_lt_of_lt_mul
      have : 2 * 2 ^ k ≤ b * 2 ^ k := Nat.mul_le_mul_right _ hb2
      rw [pow_succ] at hlt
      omega
    have hqle : v.natAbs / b ≤ v.natAbs := Nat.div_le_self _ _
    have hchar : digitTable.getD (tableIndex v b).toNat '\x00' = digitChar (v.natAbs % b) :=
      (tableAt_ok_bounds h5).2.2
    rw [loopDigits_unfold b v.natAbs hb2]
    by_cases hz : Int.tdiv v b = 0
    · have hz2 : v.natAbs / b = 0 := by rw [← habs, hz]; rfl
      have hits : itoaIterations (k + 1) v b = [v] := by simp [itoaIterations, hz]
      rw [hits]
      refine ⟨?_, ?_, ?_, ?_⟩
      · intro t ht
        simp only [List.mem_singleton] at ht
        subst ht
        exact ⟨hlo, hhi⟩
      · intro fuel2 hf
        obtain ⟨f2, rfl⟩ : ∃ f2, fuel2 = f2 + 1 := ⟨fuel2 - 1, by omega⟩
        simp [itoaIterations, hz]
      · simp only [List.map_cons, List.map_nil, hchar, hz2, if_true]
      · intro t ht
        simp only [List.getLast?_singleton, Option.some.injEq] at ht
        subst ht
        exact hz
    · have hz2 : v.natAbs / b ≠ 0 := by
        rw [← habs]; exact fun h => hz (Int.natAbs_eq_zero.mp h)
      have hk : 0 < k := by
        rcases Nat.eq_zero_or_pos k with h | h
        · subst h; simp at hq; exact absurd hq hz2
        · exact h
      simp only [INT_MIN, INT_MAX] at hlo hhi
      obtain ⟨i1, i2, i3, i4⟩ := ih (Int.tdiv v b)
        (by simp only [INT_MIN]; omega) (by simp only [INT_MAX]; omega) hk
        (by rw [habs]; exact hq)
      have hits : itoaIterations (k + 1) v b = v :: itoaIterations k (Int.tdiv v b) b := by
        simp [itoaIterations, hz]
      rw [hits]
      refine ⟨?_, ?_, ?_, ?_⟩
      · intro t ht
        rcases List.mem_cons.mp ht with rfl | hmem
        · simp only [INT_MIN, INT_MAX]; omega
        · exact i1 t hmem
      · intro fuel2 hf
        obtain ⟨f2, rfl⟩ : ∃ f2, fuel2 = f2 + 1 := ⟨fuel2 - 1, by omega⟩
        simp only [itoaIterations, ne_eq, hz, not_false_eq_true, if_true]
        rw [i2 f2 (by omega)]
      · rw [List.map_cons, hchar, i3, habs, if_neg hz2]
      · intro t ht
        have hne : itoaIterations k (Int.tdiv v b) b ≠ [] := by
          obtain ⟨k2, rfl⟩ : ∃ k2, k = k2 + 1 := ⟨k - 1, by omega⟩
          simp [itoaIterations]
        cases hrest : itoaIterations k (Int.tdiv v b) b with
        | nil => exact absurd hrest hne
        | cons x xs =>
          rw [hrest, List.getLast?_cons_cons] at ht
          exact i4 t (by rw [hrest]; exact ht)

theorem intResult_ok_range {x y : Int} (h : intResult x = .ok y) :
    INT_MIN ≤ x ∧ x ≤ INT_MAX := by
  unfold intResult at h
  split at h
  · assumption
  · exact absurd h (by simp)

theorem itoaIterations_length_le : ∀ (fuel : Nat) (v b : Int),
    (itoaIterations fuel v b).length ≤ fuel := by
  intro fuel
  induction fuel with
  | zero => intro v b; simp [itoaIterations]
  | succ k ih =>
    intro v b
    simp only [itoaIterations, List.length_cons]
    split
    · have := ih (Int.tdiv v b) b; omega
    · simp

theorem digitValue_digitChar : ∀ d : Fin 36, digitValue (digitChar d.val) = some d.val := by
  decide

theorem digitChar_ne_minus : ∀ d : Fin 36, digitChar d.val ≠ '-' := by decide

theorem parseDigits_map (b : Nat) (hb36 : b ≤ 36) : ∀ (ds : List Nat) (acc : Nat),
    (∀ d ∈ ds, d < b) →
    parseDigits b (ds.map digitChar) acc = some (ds.foldl (fun a d => a * b + d) acc) := by
  intro ds
  induction ds with
  | nil => intro acc _; rfl
  | cons d rest ih =>
    intro acc hall
    have hd : d < b := hall d (List.mem_cons_self _ _)
    have hv := digitValue_digitChar ⟨d, by omega⟩
    simp only [List.map_cons, parseDigits, hv, hd, if_true, List.foldl_cons]
    exact ih _ (fun x hx => hall x (List.mem_cons_of_mem _ hx))

theorem foldl_reverse_digits (b : Nat) (ds : List Nat) :
    ds.reverse.foldl (fun a d => a * b + d) 0 = Nat.ofDigits b ds := by
  rw [List.foldl_reverse, Nat.ofDigits_eq_foldr]
  congr 1
  funext x y
  simp [Nat.mul_comm, Nat.add_comm]

/-- The digits that `numeral` writes for a natural number parse back to it. -/
theorem parseDigits_digits (b n : Nat) (hb2 : 2 ≤ b) (hb36 : b ≤ 36) :
    parseDigits b ((Nat.digits b n).reverse.map digitChar) 0 = some n := by
  rw [parseDigits_map b hb36 _ 0
    (fun d hd => Nat.digits_lt_base (by omega) (List.mem_reverse.mp hd)),
    foldl_reverse_digits, Nat.ofDigits_digits]

/-- The numeral of an integer parses back to the integer. -/
theorem parseNumeral_numeral (v : Int) (b : Nat) (hb2 : 2 ≤ b) (hb36 : b ≤ 36) :
    parseNumeral b (numeral v b) = some v := by
  by_cases hv : v = 0
  · subst hv
    have h0 : digitValue '0' = some 0 := by decide
    have hhead : ¬ (['0'].head? = some '-') := by decide
    have hnum : numeral 0 b = ['0'] := by simp [numeral]
    have hb : 0 < b := by omega
    rw [hnum]
    simp only [parseNumeral, if_neg hhead, parseDigits, h0, hb, if_true]
    simp
  · have hn : v.natAbs ≠ 0 := fun h => hv (Int.natAbs_eq_zero.mp h)
    have hne : (Nat.digits b v.natAbs).reverse.map digitChar ≠ [] := by
      simp [Nat.digits_ne_nil_iff_ne_zero, hn]
    have hdig := parseDigits_digits b v.natAbs hb2 hb36
    by_cases hneg : v < 0
    · have hnum : numeral v b = '-' :: (Nat.digits b v.natAbs).reverse.map digitChar := by
        simp [numeral, hv, hneg]
      rw [hnum]
      simp only [parseNumeral, List.head?_cons, if_true, List.tail_cons, if_neg hne, hdig,
        Option.some.injEq]
      omega
    · have hnum : numeral v b = (Nat.digits b v.natAbs).reverse.map digitChar := by
        simp [numeral, hv, hneg]
      obtain ⟨d, rest, hd⟩ := numeral_no_leading_zero v b hv hb2 hb36
      rw [if_neg hneg, List.nil_append] at hd
      have hhead : (numeral v b).head? ≠ some '-' := by
        rw [hd.1]
        simp only [List.head?_cons, ne_eq, Option.some.injEq]
        exact digitChar_ne_minus ⟨d, by omega⟩
      rw [hnum] at hhead
      rw [hnum]
      simp only [parseNumeral, if_neg hhead, if_neg hne, hdig,
        Option.some.injEq]
      omega

/-! ## Lemmas on the line composer -/

theorem formatUnsignedLong_eq_signed (n : Int) (h0 : 0 ≤ n) (h1 : n < 18446744073709551616) :
    formatUnsignedLong n = formatSigned n := by
  unfold formatUnsignedLong formatSigned to_string
  rw [Int.emod_eq_of_lt h0 h1, if_neg (by omega)]
  congr 2
  omega

theorem SECONDS_bounds (now : Int) (h0 : 0 ≤ now) (h1 : now < 9223372036854775808) :
    0 ≤ SECONDS now ∧ SECONDS now < 18446744073709551616 := by
  unfold SECONDS
  rw [Int.tdiv_eq_ediv h0 (by decide)]
  omega

theorem NANO_SECONDS_bounds (now : Int) (h0 : 0 ≤ now) :
    0 ≤ NANO_SECONDS now ∧ NANO_SECONDS now < 18446744073709551616 := by
  unfold NANO_SECONDS
  rw [Int.tmod_eq_emod h0 (by decide)]
  omega

/-! ## The claims -/

/-- C1, as stated, fails: `a/b/c/d` has four segments and all four are kept, and the call
ends in `back()` on an empty vector; `src/src/src/auv` has four segments and its one kept
segment is `auv` itself, and the call ends in the exception of `substr`. -/
theorem getNormalHeader_default_depth_counterexample :
    4 ≤ (splitPath "a/b/c/d".toList).length
    ∧ getNormalHeader "a/b/c/d".toList 4 = .error .emptyBack
    ∧ 4 ≤ (splitPath "src/src/src/auv".toList).length
    ∧ getNormalHeader "src/src/src/auv".toList 4 = .error .substrOutOfRange := by
  decide

/-- C1, amended: for every path with at least 4 segments, of whose last 4 segments at most
3 are kept (differ from `src` and `include`) and no kept one both contains `auv` and is
shorter than 4 characters, `getNormalHeader(path, 4)` returns the header built from exactly
the kept ones of the last 4 segments, in path order: every kept segment that contains `auv`
loses its first 4 characters, each is wrapped in one bracket pair, and the concatenation
is uppercased; the loop that splits the path ends by itself. -/
theorem getNormalHeader_default_depth (path : List Char)
    (h4 : 4 ≤ (splitPath path).length)
    (hk : (keptSegments (lastSegments 4 (splitPath path))).length ≤ 3)
    (hauv : ∀ s ∈ keptSegments (lastSegments 4 (splitPath path)),
      containsAuv s = true → 4 ≤ s.length) :
    getNormalHeader path 4 = .ok (transformToupper (wrapAll bracketPairs
      ((keptSegments (lastSegments 4 (splitPath path))).map stripAuv)))
    ∧ (∀ fuel, path.length < fuel → getlineLoop fuel path [] = splitPath path) :=
  ⟨getNormalHeader_ok path 4 h4 hk hauv, fun fuel h => getlineLoop_eq_splitPath fuel path h⟩

theorem getNormalHeader_default_depth_witness :
    getNormalHeader "/home/ws/src/auv_nav/include/pilot.h".toList 4
      = .ok (transformToupper (wrapAll bracketPairs
          ((keptSegments (lastSegments 4
            (splitPath "/home/ws/src/auv_nav/include/pilot.h".toList))).map stripAuv))) :=
  (getNormalHeader_default_depth "/home/ws/src/auv_nav/include/pilot.h".toList
    (by decide) (by decide) (by decide)).1

/-- C2, as stated, fails: the three segments of `a/b/c` are all kept, and the first one
comes out in square brackets and the third in angle brackets; and the two segments of
`x/auv` are both kept, and no header comes out at all. -/
theorem getNormalHeader_bracket_order_counterexample :
    keptSegments (lastSegments 3 (splitPath "a/b/c".toList))
      = ["a".toList, "b".toList, "c".toList]
    ∧ getNormalHeader "a/b/c".toList 3 = .ok "[A](B)<C>".toList
    ∧ getNormalHeader "a/b/c".toList 3 ≠ .ok "<A>(B)[C]".toList
    ∧ keptSegments (lastSegments 2 (splitPath "x/auv".toList)) = ["x".toList, "auv".toList]
    ∧ getNormalHeader "x/auv".toList 2 = .error .substrOutOfRange := by
  decide

/-- C2, amended: for every path and every depth `n` not above the number of segments, when
at most 3 of the last `n` segments are kept (and no kept one both contains `auv` and is
shorter than 4 characters), the header is the uppercased concatenation in which the first
kept segment is wrapped in `[` `]`, the second in `(` `)` and the third in `<` `>`. -/
theorem getNormalHeader_bracket_order (path : List Char) (n : Nat)
    (hn : n ≤ (splitPath path).length)
    (hk : (keptSegments (lastSegments n (splitPath path))).length ≤ 3)
    (hauv : ∀ s ∈ keptSegments (lastSegments n (splitPath path)),
      containsAuv s = true → 4 ≤ s.length) :
    getNormalHeader path n = .ok (transformToupper (bracketed
      ((keptSegments (lastSegments n (splitPath path))).map stripAuv))) := by
  rw [getNormalHeader_ok path n hn hk hauv, wrapAll_bracketPairs _ (by simpa using hk)]

theorem getNormalHeader_bracket_order_witness :
    getNormalHeader "lib/include/auv_core/x.h".toList (3 : Nat)
      = .ok (transformToupper (bracketed
          ((keptSegments (lastSegments 3
            (splitPath "lib/include/auv_core/x.h".toList))).map stripAuv))) :=
  getNormalHeader_bracket_order "lib/include/auv_core/x.h".toList 3
    (by decide) (by decide) (by decide)

/-- C3, as stated, fails: the header of `project/src/module/auvFoo/file.cpp` at depth 4 is
not `<PROJECT>(FOO)[FILE.CPP]`. -/
theorem getNormalHeader_example_counterexample :
    getNormalHeader "project/src/module/auvFoo/file.cpp".toList 4
      ≠ .ok "<PROJECT>(FOO)[FILE.CPP]".toList := by
  decide

/-- C3, amended: `getNormalHeader("project/src/module/auvFoo/file.cpp", 4)` returns exactly
`[MODULE](OO)<FILE.CPP>`: the last 4 segments are `src`, `module`, `auvFoo`, `file.cpp`, the
kept ones are `module`, `auvFoo` and `file.cpp`, and `auvFoo` without its first 4
characters is `oo`. -/
theorem getNormalHeader_example :
    getNormalHeader "project/src/module/auvFoo/file.cpp".toList 4
      = .ok "[MODULE](OO)<FILE.CPP>".toList
    ∧ lastSegments 4 (splitPath "project/src/module/auvFoo/file.cpp".toList)
      = ["src".toList, "module".toList, "auvFoo".toList, "file.cpp".toList]
    ∧ keptSegments (lastSegments 4 (splitPath "project/src/module/auvFoo/file.cpp".toList))
      = ["module".toList, "auvFoo".toList, "file.cpp".toList]
    ∧ stripSegment "auvFoo".toList = .ok "oo".toList := by
  decide

/-- C4: for every 32-bit `value` and every base from 2 to 36, `itoa` writes the numeral of
`value` in that base: a `-` exactly for a negative value, then the digits of the absolute
value, most significant first, as `0`-`9` and `a`-`z`, `0` alone for zero and no leading
zero otherwise; any allowance of at least 32 iterations gives the same result; and
`itoa(255, 16)` is `ff`, `itoa(-42, 10)` is `-42`. -/
theorem itoa_writes_numeral (value : Int) (base : Nat) (hlo : INT_MIN ≤ value)
    (hhi : value ≤ INT_MAX) (hb2 : 2 ≤ base) (hb36 : base ≤ 36) :
    itoa value base = .ok (numeral value base)
    ∧ (∀ fuel, 32 ≤ fuel → itoaFuel fuel value base = .ok (numeral value base))
    ∧ (value ≠ 0 → ∃ d rest,
        numeral value base = (if value < 0 then ['-'] else []) ++ digitChar d :: rest
          ∧ d ≠ 0 ∧ d < base ∧ digitChar d ≠ '0')
    ∧ itoa 255 16 = .ok "ff".toList ∧ itoa (-42) 10 = .ok "-42".toList := by
  refine ⟨itoaFuel_eq_numeral 32 value base (le_refl _) hlo hhi hb2 hb36,
    fun fuel hf => itoaFuel_eq_numeral fuel value base hf hlo hhi hb2 hb36,
    fun hv => numeral_no_leading_zero value base hv hb2 hb36, by decide, by decide⟩

theorem itoa_writes_numeral_witness :
    itoa (-2147483648) (2 : Nat) = .ok (numeral (-2147483648) 2) :=
  (itoa_writes_numeral (-2147483648) 2 (by decide) (by decide) (by decide) (by decide)).1

/-- C5: for every 32-bit `value`, `itoa` returns a string, and that string is empty
exactly when the base is below 2 or above 36. -/
theorem itoa_empty_iff_bad_base (value base : Int) (hlo : INT_MIN ≤ value)
    (hhi : value ≤ INT_MAX) :
    ∃ s, itoa value base = .ok s ∧ (s = [] ↔ (base < 2 ∨ base > 36)) := by
  by_cases hbase : base < 2 ∨ base > 36
  · exact ⟨[], by simp [itoa, itoaFuel, hbase], by simp [hbase]⟩
  · have h2 : 2 ≤ base.toNat := by omega
    have h36 : base.toNat ≤ 36 := by omega
    have hcast : ((base.toNat : Nat) : Int) = base := Int.toNat_of_nonneg (by omega)
    have := itoaFuel_eq_numeral 32 value base.toNat (le_refl _) hlo hhi h2 h36
    rw [hcast] at this
    exact ⟨_, this, by simp [hbase, numeral_ne_nil]⟩

theorem itoa_empty_iff_bad_base_witness :
    ∃ s, itoa 7 37 = .ok s ∧ (s = [] ↔ ((37 : Int) < 2 ∨ (37 : Int) > 36)) :=
  itoa_empty_iff_bad_base 7 37 (by decide) (by decide)

/-- C6: the two style tables have five entries each, the levels index them as `DEBUG = 0`,
`INFO = 1`, `WARN = 2`, `ERROR = 3`, `FATAL = 4`, and the pair of a level is: `DEBUG`
(32, 0), `INFO` (39, 0), `WARN` (33, 0), `ERROR` (31, 0), `FATAL` (31, 1), where 32 is
`FG_GREEN`, 39 `FG_DEFAULT`, 33 `FG_YELLOW`, 31 `FG_RED`, 0 `ATTR_RESET` and 1
`ATTR_TEXT_BOLD`. -/
theorem style_table :
    (colorMap.length = 5 ∧ attributeMap.length = 5
      ∧ Level.DEBUG.index = 0 ∧ Level.INFO.index = 1 ∧ Level.WARN.index = 2
      ∧ Level.ERROR.index = 3 ∧ Level.FATAL.index = 4
      ∧ FG_GREEN = 32 ∧ FG_DEFAULT = 39 ∧ FG_YELLOW = 33 ∧ FG_RED = 31
      ∧ ATTR_RESET = 0 ∧ ATTR_TEXT_BOLD = 1
      ∧ (colorMap[Level.DEBUG.index]?, attributeMap[Level.DEBUG.index]?)
          = (some FG_GREEN, some ATTR_RESET)
      ∧ (colorMap[Level.INFO.index]?, attributeMap[Level.INFO.index]?)
          = (some FG_DEFAULT, some ATTR_RESET)
      ∧ (colorMap[Level.WARN.index]?, attributeMap[Level.WARN.index]?)
          = (some FG_YELLOW, some ATTR_RESET)
      ∧ (colorMap[Level.ERROR.index]?, attributeMap[Level.ERROR.index]?)
          = (some FG_RED, some ATTR_RESET)
      ∧ (colorMap[Level.FATAL.index]?, attributeMap[Level.FATAL.index]?)
          = (some FG_RED, some ATTR_TEXT_BOLD))
    ∧ (∀ level : Level, colorMap[level.index]? = some (colorOf level)
        ∧ attributeMap[level.index]? = some (attributeOf level)) := by
  constructor
  · decide
  · intro level
    cases level <;> decide

/-- C7, as stated, fails: the normal header of `src/src/src/a` is `[A]`, and the fine header
for the function `f` at line 7 is not `[A]` with `{Function: f() Line: 7}` put right behind
it. -/
theorem getHeader_fine_counterexample :
    getNormalHeader "src/src/src/a".toList 4 = .ok "[A]".toList
    ∧ getHeader "src/src/src/a".toList "f".toList 7 1
      ≠ .ok ("[A]".toList ++ ("\x7bFunction: ".toList ++ "f".toList ++ "() Line: ".toList
          ++ to_string 7 ++ "\x7d".toList)) := by
  decide

/-- C7, amended: whenever the normal header of a path is produced, the fine-mode header
`getHeader(path, function, line, 1)` is that header followed by one space and the text
`{Function: ` ++ function ++ `() Line: ` ++ decimal(line) ++ `}`, and the normal-mode header
`getHeader(path, function, line, 0)` is that header alone. -/
theorem getHeader_fine_appends (path function : List Char) (line : Int) (header : List Char)
    (h : getNormalHeader path 4 = .ok header) :
    getHeader path function line 1
      = .ok (header ++ " ".toList ++ ("\x7bFunction: ".toList ++ function
          ++ "() Line: ".toList ++ to_string line ++ "\x7d".toList))
    ∧ getHeader path function line 0 = .ok header := by
  refine ⟨?_, ?_⟩
  · rw [getHeader_fine path function line header h]
    simp
  · rw [getHeader_normal, h]

theorem getHeader_fine_appends_witness :
    getHeader "src/src/src/a".toList "main".toList 42 1
      = .ok ("[A]".toList ++ " ".toList ++ ("\x7bFunction: ".toList ++ "main".toList
          ++ "() Line: ".toList ++ to_string 42 ++ "\x7d".toList))
    ∧ getHeader "src/src/src/a".toList "main".toList 42 0 = .ok "[A]".toList :=
  getHeader_fine_appends "src/src/src/a".toList "main".toList 42 "[A]".toList (by decide)

/-- C8: whenever the normal header of a path is produced, the normal-mode header
(`getHeader` with verbosity 0) is produced and contains neither `Function:` nor `Line:`,
and the fine-mode header (`getHeader` with verbosity 1) is produced and contains both. -/
theorem getHeader_function_line (path function : List Char) (line : Int)
    (header : List Char) (h : getNormalHeader path 4 = .ok header) :
    ∃ normal fine, getHeader path function line 0 = .ok normal
      ∧ getHeader path function line 1 = .ok fine
      ∧ ¬ "Function:".toList <:+: normal ∧ ¬ "Line:".toList <:+: normal
      ∧ "Function:".toList <:+: fine ∧ "Line:".toList <:+: fine := by
  have hup := getNormalHeader_upper path 4 header h
  refine ⟨header, _, by rw [getHeader_normal, h],
    getHeader_fine path function line header h, ?_, ?_, ?_, ?_⟩
  · exact no_lowercase_infix header _ 'u' hup (by decide) (by decide)
  · exact no_lowercase_infix header _ 'i' hup (by decide) (by decide)
  · refine ⟨header ++ " \x7b".toList,
      " ".toList ++ function ++ "() Line: ".toList ++ to_string line ++ "\x7d".toList, ?_⟩
    simp
  · refine ⟨header ++ " \x7bFunction: ".toList ++ function ++ "() ".toList,
      " ".toList ++ to_string line ++ "\x7d".toList, ?_⟩
    simp

theorem getHeader_function_line_witness :
    ∃ normal fine, getHeader "ws/src/pkg/node.cpp".toList "spin".toList 9 0 = .ok normal
      ∧ getHeader "ws/src/pkg/node.cpp".toList "spin".toList 9 1 = .ok fine
      ∧ ¬ "Function:".toList <:+: normal ∧ ¬ "Line:".toList <:+: normal
      ∧ "Function:".toList <:+: fine ∧ "Line:".toList <:+: fine :=
  getHeader_function_line "ws/src/pkg/node.cpp".toList "spin".toList 9
    "[WS](PKG)<NODE.CPP>".toList (by decide)

/-- C9, as stated, fails: at the level `INFO` and the clock reading 1700000000123456789 the
macros write `[ INFO ] [ 1700000000:123456789]`, with the spaces in front of the level name
and of the seconds, and not the right-padded fields of the claim. -/
theorem LOG_line_counterexample :
    getHeader "src/src/src/a".toList "f".toList 1 0 = .ok "[A]".toList
    ∧ LOG .INFO 0 "hi".toList 1700000000123456789 1700000000123456789
        "src/src/src/a".toList "f".toList 1
      = .ok "\x1b[0m\x1b[39m[ INFO ] [ 1700000000:123456789] [A] hi\x1b[0m\n".toList
    ∧ LOG_STREAM .INFO 0 "hi".toList 1700000000123456789 1700000000123456789
        "src/src/src/a".toList "f".toList 1
      = .ok "\x1b[0m\x1b[39m[ INFO ] [ 1700000000:123456789] [A] hi\x1b[0m\n".toList
    ∧ specLine .INFO (SECONDS 1700000000123456789) (NANO_SECONDS 1700000000123456789)
        "[A]".toList "hi".toList
      = "\x1b[0m\x1b[39m[INFO  ] [1700000000 :123456789] [A] hi\x1b[0m\n".toList
    ∧ LOG .INFO 0 "hi".toList 1700000000123456789 1700000000123456789
        "src/src/src/a".toList "f".toList 1
      ≠ .ok (specLine .INFO (SECONDS 1700000000123456789) (NANO_SECONDS 1700000000123456789)
        "[A]".toList "hi".toList)
    ∧ LOG_STREAM .INFO 0 "hi".toList 1700000000123456789 1700000000123456789
        "src/src/src/a".toList "f".toList 1
      ≠ .ok (specLine .INFO (SECONDS 1700000000123456789) (NANO_SECONDS 1700000000123456789)
        "[A]".toList "hi".toList) := by
  decide

/-- C9, amended: for every level, verbosity, message and place of the call for which the
header is produced, and every pair of clock readings that are not negative, `LOG` and
`LOG_STREAM` both write exactly: `ESC[`, the attribute code of the level, `m`, `ESC[`, the
colour code of the level, `m`, `[`, the level name right-justified (spaces in front) to
width 5, ` ] [`, the seconds in decimal right-justified to width 11, `:`, the nanoseconds
in decimal right-justified to width 9, `] `, the header, one space, the message, `ESC[0m`
and a line feed. -/
theorem LOG_line (level : Level) (verbose : Int) (message : List Char) (clockS clockN : Int)
    (file function : List Char) (line : Int) (header : List Char)
    (h : getHeader file function line verbose = .ok header)
    (hS0 : 0 ≤ clockS) (hS1 : clockS < 9223372036854775808) (hN0 : 0 ≤ clockN) :
    LOG level verbose message clockS clockN file function line
      = .ok (composedLine level (to_string (SECONDS clockS))
          (to_string (NANO_SECONDS clockN)) header message)
    ∧ LOG_STREAM level verbose message clockS clockN file function line
      = .ok (composedLine level (to_string (SECONDS clockS))
          (to_string (NANO_SECONDS clockN)) header message)
    ∧ (∀ (width : Nat) (text : List Char),
        padField width text = List.replicate (width - text.length) ' ' ++ text)
    ∧ padField 5 Level.DEBUG.name = "DEBUG".toList ∧ padField 5 Level.INFO.name = " INFO".toList
    ∧ padField 5 Level.WARN.name = " WARN".toList ∧ padField 5 Level.ERROR.name = "ERROR".toList
    ∧ padField 5 Level.FATAL.name = "FATAL".toList := by
  obtain ⟨a0, a1⟩ := SECONDS_bounds clockS hS0 hS1
  obtain ⟨b0, b1⟩ := NANO_SECONDS_bounds clockN hN0
  have hlog : LOG level verbose message clockS clockN file function line
      = .ok (composedLine level (formatUnsignedLong (SECONDS clockS))
          (formatUnsignedLong (NANO_SECONDS clockN)) header message) := by
    simp [LOG, h, composedLine, CSI_SINGLE_CODE, CSI_CODE, ATTR_RESET, formatSigned, to_string]
    decide
  have hstream : LOG_STREAM level verbose message clockS clockN file function line
      = .ok (composedLine level (formatSigned (SECONDS clockS))
          (formatSigned (NANO_SECONDS clockN)) header message) := by
    simp [LOG_STREAM, h, composedLine, CSI_SINGLE_CODE, CSI_CODE, ATTR_RESET, formatSigned,
      to_string]
    decide
  rw [formatUnsignedLong_eq_signed _ a0 a1, formatUnsignedLong_eq_signed _ b0 b1] at hlog
  exact ⟨hlog, hstream, fun _ _ => rfl, by decide, by decide, by decide, by decide,
    by decide⟩

theorem LOG_line_witness :
    LOG .FATAL 1 "disk full".toList 7123456789 7123456790 "ws/src/pkg/node.cpp".toList
        "spin".toList 9
      = .ok "\x1b[1m\x1b[31m[FATAL ] [          7:123456790] [WS](PKG)<NODE.CPP> \x7bFunction: spin() Line: 9\x7d disk full\x1b[0m\n".toList :=
  (LOG_line .FATAL 1 "disk full".toList 7123456789 7123456790 "ws/src/pkg/node.cpp".toList
    "spin".toList 9 "[WS](PKG)<NODE.CPP> \x7bFunction: spin() Line: 9\x7d".toList
    (by decide) (by decide) (by decide) (by decide)).1.trans (by decide)

/-- C10: for every level, message, clock readings and place of the call, each guarded entry
point writes nothing (and does not fail) when its condition is false, and when its
condition is true does exactly what the unguarded form does: `LOG_COND` what `LOG` does at
verbosity 0, `LOG_STREAM_COND` what `LOG_STREAM` does at verbosity 0, `LOG_COND_FINE` what
`LOG` does at verbosity 1, `LOG_STREAM_COND_FINE` what `LOG_STREAM` does at verbosity 1. -/
theorem guarded_entry_points (level : Level) (message : List Char) (clockS clockN : Int)
    (file function : List Char) (line : Int) :
    LOG_COND level false message clockS clockN file function line = .ok []
    ∧ LOG_STREAM_COND level false message clockS clockN file function line = .ok []
    ∧ LOG_COND_FINE level false message clockS clockN file function line = .ok []
    ∧ LOG_STREAM_COND_FINE level false message clockS clockN file function line = .ok []
    ∧ LOG_COND level true message clockS clockN file function line
      = LOG level 0 message clockS clockN file function line
    ∧ LOG_STREAM_COND level true message clockS clockN file function line
      = LOG_STREAM level 0 message clockS clockN file function line
    ∧ LOG_COND_FINE level true message clockS clockN file function line
      = LOG level 1 message clockS clockN file function line
    ∧ LOG_STREAM_COND_FINE level true message clockS clockN file function line
      = LOG_STREAM level 1 message clockS clockN file function line :=
  ⟨rfl, rfl, rfl, rfl, rfl, rfl, rfl, rfl⟩

/-- C11, at the failing input: the path `a/b` has 2 segments, and at depth 3 the first
iteration reads `path[path.size() - 3]`.  The index is out of range and the source does not
check it: the behaviour is undefined from there, and the call is not stopped.  The same
holds for every depth above the number of segments, such as the default depth 4 for the
file `pkg/src/main.cpp`.  Only a negative depth is stopped, by the assertion. -/
theorem getNormalHeader_short_path_undefined :
    (splitPath "a/b".toList).length = 2
    ∧ headerStep 3 ⟨splitPath "a/b".toList, [], ["<".toList, "(".toList, "[".toList],
        [">".toList, ")".toList, "]".toList]⟩ = .error .indexOutOfRange
    ∧ getNormalHeader "a/b".toList 3 = .error .indexOutOfRange
    ∧ (splitPath "pkg/src/main.cpp".toList).length = 3
    ∧ getHeader "pkg/src/main.cpp".toList "main".toList 1 0 = .error .indexOutOfRange
    ∧ Fault.undefined .indexOutOfRange = true
    ∧ (∀ (path : List Char) (n : Int), ((splitPath path).length : Int) < n →
        getNormalHeader path n = .error .indexOutOfRange)
    ∧ (∀ (path : List Char) (n : Int), n < 0 → getNormalHeader path n = .error .assertion)
    ∧ Fault.undefined .assertion = false := by
  refine ⟨by decide, by decide, by decide, by decide, by decide, rfl, ?_, ?_, rfl⟩
  · intro path n h
    exact getNormalHeader_too_long path n (by omega) h
  · intro path n h
    exact getNormalHeader_negative path n h

/-- C12, as stated, fails: the four segments of `auv/b/c/d` are all kept, and the call ends
in the exception of `substr` at the first of them, not in `back()` at the fourth; the four
segments of `a/b/c/auv` are all kept, and the call ends in the exception of `substr` at
the fourth, before `back()` is called. -/
theorem getNormalHeader_four_kept_counterexample :
    keptSegments (lastSegments 4 (splitPath "auv/b/c/d".toList))
      = ["auv".toList, "b".toList, "c".toList, "d".toList]
    ∧ getNormalHeader "auv/b/c/d".toList 4 = .error .substrOutOfRange
    ∧ getNormalHeader "auv/b/c/d".toList 4 ≠ .error .emptyBack
    ∧ keptSegments (lastSegments 4 (splitPath "a/b/c/auv".toList))
      = ["a".toList, "b".toList, "c".toList, "auv".toList]
    ∧ getNormalHeader "a/b/c/auv".toList 4 = .error .substrOutOfRange
    ∧ getNormalHeader "a/b/c/auv".toList 4 ≠ .error .emptyBack := by
  decide

/-- C12, amended: for every path whose last 4 segments are all kept, none of them both
containing `auv` and shorter than 4 characters, `getNormalHeader(path, 4)` returns no
header: the first three kept segments go through and take the three bracket pairs, and at
the fourth the call reads a bracket with `back()` from the emptied vector, so the call
ends in that fault. -/
theorem getNormalHeader_four_kept (path : List Char)
    (h : (keptSegments (lastSegments 4 (splitPath path))).length = 4)
    (hauv : ∀ s ∈ keptSegments (lastSegments 4 (splitPath path)),
      containsAuv s = true → 4 ≤ s.length) :
    getNormalHeader path 4 = .error .emptyBack
    ∧ (∀ header, getNormalHeader path 4 ≠ .ok header)
    ∧ 4 ≤ (splitPath path).length
    ∧ (∃ r, walk ((lastSegments 4 (splitPath path)).take 3) []
        ["<".toList, "(".toList, "[".toList] [">".toList, ")".toList, "]".toList] = .ok r)
    ∧ Fault.undefined .emptyBack = true := by
  have hlen : 4 ≤ (splitPath path).length := by
    have := (kept_length_le 4 (splitPath path)).2
    omega
  have hw : getNormalHeader path 4 = walk (lastSegments 4 (splitPath path)) []
      ["<".toList, "(".toList, "[".toList] [">".toList, ")".toList, "]".toList] :=
    getNormalHeader_eq_walk path 4 hlen
  have hfault : getNormalHeader path 4 = .error .emptyBack := by
    rw [hw]
    exact walk_emptyBack _ _ _ _ rfl (by simp only [List.length_cons, List.length_nil]; omega)
      hauv
  obtain ⟨k1, k2⟩ := kept_take_subset 3 (lastSegments 4 (splitPath path))
  refine ⟨hfault, ?_, hlen, ⟨_, walk_ok _ [] _ _ rfl k1 (fun s hs => hauv s (k2 s hs)) rfl⟩,
    rfl⟩
  intro header hok
  rw [hfault] at hok
  exact absurd hok (by simp)

theorem getNormalHeader_four_kept_witness :
    getNormalHeader "usr/lib/auv_log/log.h".toList 4 = .error .emptyBack :=
  (getNormalHeader_four_kept "usr/lib/auv_log/log.h".toList (by decide) (by decide)).1

/-- C13, as stated, fails: the clock reading -1 is a signed 64-bit count, and
`NANO_SECONDS` makes -1 of it, which is below 0. -/
theorem NANO_SECONDS_range_counterexample :
    (-9223372036854775808 : Int) ≤ -1 ∧ (-1 : Int) ≤ 9223372036854775807
    ∧ NANO_SECONDS (-1) = -1 ∧ ¬ (0 ≤ NANO_SECONDS (-1)) := by
  decide

/-- C13, amended: for every clock reading `n` that is not negative, the nanosecond
component `n % 1000000000` lies in [0, 999999999]; for a negative reading it lies in
[-999999999, 0]; in both cases it is `n` minus 1000000000 times the truncated quotient. -/
theorem NANO_SECONDS_range (n : Int) :
    (0 ≤ n → 0 ≤ NANO_SECONDS n ∧ NANO_SECONDS n ≤ 999999999)
    ∧ (n < 0 → -999999999 ≤ NANO_SECONDS n ∧ NANO_SECONDS n ≤ 0)
    ∧ NANO_SECONDS n = n - 1000000000 * SECONDS n := by
  have hdef : NANO_SECONDS n = n - 1000000000 * SECONDS n := by
    unfold NANO_SECONDS SECONDS
    exact Int.tmod_def n 1000000000
  refine ⟨?_, ?_, hdef⟩
  · intro h0
    unfold NANO_SECONDS
    rw [Int.tmod_eq_emod h0 (by decide)]
    omega
  · intro hneg
    obtain ⟨m, hm⟩ : ∃ m : Int, n = -m ∧ 0 ≤ m := ⟨-n, by omega, by omega⟩
    unfold NANO_SECONDS
    rw [hm.1, Int.tmod_def, Int.neg_tdiv, Int.tdiv_eq_ediv hm.2 (by decide)]
    omega

theorem NANO_SECONDS_range_witness :
    0 ≤ NANO_SECONDS 1700000000123456789 ∧ NANO_SECONDS 1700000000123456789 ≤ 999999999 :=
  (NANO_SECONDS_range 1700000000123456789).1 (by decide)

/-- C14: for every depth `N` that is not negative and every two paths that have at least
`N` segments each and the same last `N` segments, `getNormalHeader` gives the same result
for both, the same header or the same fault; with `N = 4` the header depends on the last
4 segments only. -/
theorem getNormalHeader_last_segments_only (p q : List Char) (n : Nat)
    (hp : n ≤ (splitPath p).length) (hq : n ≤ (splitPath q).length)
    (h : lastSegments n (splitPath p) = lastSegments n (splitPath q)) :
    getNormalHeader p n = getNormalHeader q n := by
  rw [getNormalHeader_eq_walk p n hp, getNormalHeader_eq_walk q n hq, h]

theorem getNormalHeader_last_segments_only_witness :
    getNormalHeader "/home/me/ws/src/auv_ctl/src/pid.cpp".toList (4 : Nat)
      = getNormalHeader "build/src/auv_ctl/src/pid.cpp".toList (4 : Nat) :=
  getNormalHeader_last_segments_only "/home/me/ws/src/auv_ctl/src/pid.cpp".toList
    "build/src/auv_ctl/src/pid.cpp".toList 4 (by decide) (by decide) (by decide)

/-- C15: every header that `getNormalHeader` returns is a fixed point of uppercasing and
holds no lowercase ASCII letter, and it is what uppercasing once at the end gives: the
uppercased plain concatenation of the wrapped kept segments, which is also the uppercased
result of the loop run without its call of `std::transform`. -/
theorem getNormalHeader_uppercased (path : List Char) (n : Int) (header : List Char)
    (h : getNormalHeader path n = .ok header) :
    transformToupper header = header
    ∧ (∀ c ∈ header, c.isLower = false ∧ ¬ (97 ≤ c.toNat ∧ c.toNat ≤ 122))
    ∧ header = transformToupper (wrapAll bracketPairs
        ((keptSegments (lastSegments n.toNat (splitPath path))).map stripAuv))
    ∧ getNormalHeader path n = mapResult transformToupper
        (walkPlain (lastSegments n.toNat (splitPath path)) []
          ["<".toList, "(".toList, "[".toList] [">".toList, ")".toList, "]".toList]) := by
  have hup := getNormalHeader_upper path n header h
  obtain ⟨h0, hlen, hk, hauv⟩ := getNormalHeader_ok_inv path n header h
  have hcast : ((n.toNat : Nat) : Int) = n := Int.toNat_of_nonneg h0
  have hok := getNormalHeader_ok path n.toNat hlen hk hauv
  have hwalk := getNormalHeader_eq_walk path n.toNat hlen
  rw [hcast] at hok hwalk
  refine ⟨hup, ?_, ?_, ?_⟩
  · intro c hc
    have hfix : toupper c = c := by
      have h1 : header.map toupper = header.map id := by rw [List.map_id]; exact hup
      exact List.map_inj_left.mp h1 c hc
    have hnl := toupper_fixed_not_lower c hfix
    refine ⟨?_, hnl⟩
    cases hl : c.isLower with
    | false => rfl
    | true => exact absurd ((isLower_iff c).mp hl) hnl
  · rw [hok] at h
    simp only [Except.ok.injEq] at h
    exact h.symm
  · rw [hwalk]
    exact walk_eq_walkPlain _ [] _ _

theorem getNormalHeader_uppercased_witness :
    transformToupper "[WS](PKG)<NODE.CPP>".toList = "[WS](PKG)<NODE.CPP>".toList :=
  (getNormalHeader_uppercased "ws/src/pkg/node.cpp".toList 4 "[WS](PKG)<NODE.CPP>".toList
    (by decide)).1

/-- C17: `getHeader` with the verbosity -1 (its default) or 0 is `getNormalHeader` at depth
4, and with every other verbosity it is `getDebugHeader`; the two differ whenever a header
is produced. -/
theorem getHeader_selects (path function : List Char) (line : Int) :
    getHeader path function line (-1) = getNormalHeader path 4
    ∧ getHeader path function line 0 = getNormalHeader path 4
    ∧ (∀ v : Int, v ≠ 0 → v ≠ -1 →
        getHeader path function line v = getDebugHeader path function line)
    ∧ (∀ header, getNormalHeader path 4 = .ok header →
        getDebugHeader path function line ≠ getNormalHeader path 4) := by
  refine ⟨by simp [getHeader, TEXT_FINE_DEBUG], by simp [getHeader], ?_, ?_⟩
  · intro v h0 h1
    simp [getHeader, h0, h1]
  · intro header hok heq
    rw [hok] at heq
    simp only [getDebugHeader, hok, Except.ok.injEq] at heq
    have := congrArg List.length heq
    simp at this

/-- C18: for every 32-bit `value` and every base from 2 to 36, in each iteration of the
digit loop of `itoa` the product `value * base` fits 32 bits and the index
`35 + (tmp_value - value * base)` into the 71-character table lies in [0, 70]; the loop
ends within 32 iterations, at an iteration whose quotient is 0, and the checked loop
returns the characters the table holds at these indices. -/
theorem itoa_loop_safe (value : Int) (base : Nat) (hlo : INT_MIN ≤ value)
    (hhi : value ≤ INT_MAX) (hb2 : 2 ≤ base) (hb36 : base ≤ 36) :
    digitTable.length = 71
    ∧ (∀ t ∈ itoaIterations 32 value base,
        INT_MIN ≤ Int.tdiv t base * base ∧ Int.tdiv t base * base ≤ INT_MAX
        ∧ 0 ≤ tableIndex t base ∧ tableIndex t base ≤ 70)
    ∧ (itoaIterations 32 value base).length ≤ 32
    ∧ (∀ fuel, 32 ≤ fuel → itoaIterations fuel value base = itoaIterations 32 value base)
    ∧ (∀ t, (itoaIterations 32 value base).getLast? = some t → Int.tdiv t base = 0)
    ∧ (∃ tmp, itoaLoop 32 value base [] = .ok (tmp, (itoaIterations 32 value base).map
        (fun t => digitTable.getD (tableIndex t base).toNat '\x00'))) := by
  have hpow : value.natAbs < 2 ^ 32 := by
    simp only [INT_MIN, INT_MAX] at hlo hhi
    norm_num
    omega
  obtain ⟨i1, i2, i3, i4⟩ :=
    itoaIterations_spec base hb2 hb36 32 value hlo hhi (by decide) hpow
  obtain ⟨tmp, hloop, -⟩ :=
    itoaLoop_spec base hb2 hb36 32 value [] hlo hhi (by decide) hpow
  refine ⟨by decide, ?_, itoaIterations_length_le 32 value base, i2, i4, tmp, ?_⟩
  · intro t ht
    obtain ⟨tlo, thi⟩ := i1 t ht
    obtain ⟨-, h2, -, -, h5, -, -⟩ := itoa_body t base tlo thi hb2 hb36
    obtain ⟨p1, p2⟩ := intResult_ok_range h2
    obtain ⟨q1, q2, -⟩ := tableAt_ok_bounds h5
    exact ⟨p1, p2, q1, q2⟩
  · rw [hloop, i3, List.nil_append]

theorem itoa_loop_safe_witness :
    ∃ tmp, itoaLoop 32 (-2147483648) (36 : Nat) [] =
      .ok (tmp, (itoaIterations 32 (-2147483648) (36 : Nat)).map
        (fun t => digitTable.getD (tableIndex t (36 : Nat)).toNat '\x00')) :=
  (itoa_loop_safe (-2147483648) 36 (by decide) (by decide) (by decide) (by decide)).2.2.2.2.2

/-- C19: for every 32-bit `value` and every base from 2 to 36, the string that `itoa`
returns, parsed as a signed numeral of that base (an optional leading `-`, then digits
`0`-`9` and `a`-`z`), gives back `value`; so for a fixed base two 32-bit values with the
same string are equal.  The parser reads `-42` in base 10 as -42 and rejects `fg` in base
16, the empty string and a lone `-`. -/
theorem itoa_round_trip (value : Int) (base : Nat) (hlo : INT_MIN ≤ value)
    (hhi : value ≤ INT_MAX) (hb2 : 2 ≤ base) (hb36 : base ≤ 36) :
    (∃ s, itoa value base = .ok s ∧ parseNumeral base s = some value)
    ∧ (∀ other : Int, INT_MIN ≤ other → other ≤ INT_MAX →
        itoa other base = itoa value base → other = value)
    ∧ parseNumeral 10 "-42".toList = some (-42) ∧ parseNumeral 16 "fg".toList = none
    ∧ parseNumeral 10 [] = none ∧ parseNumeral 10 "-".toList = none := by
  have hv := itoaFuel_eq_numeral 32 value base (le_refl _) hlo hhi hb2 hb36
  refine ⟨⟨_, hv, parseNumeral_numeral value base hb2 hb36⟩, ?_, by decide, by decide,
    by decide, by decide⟩
  intro other olo ohi heq
  have ho := itoaFuel_eq_numeral 32 other base (le_refl _) olo ohi hb2 hb36
  have hnum : numeral other base = numeral value base := by
    have h1 : itoaFuel 32 other base = itoaFuel 32 value base := heq
    rw [ho, hv] at h1
    exact Except.ok.inj h1
  have h2 := parseNumeral_numeral other base hb2 hb36
  rw [hnum, parseNumeral_numeral value base hb2 hb36] at h2
  exact (Option.some.inj h2).symm

theorem itoa_round_trip_witness :
    ∃ s, itoa (-2147483648) (36 : Nat) = .ok s
      ∧ parseNumeral 36 s = some (-2147483648) :=
  (itoa_round_trip (-2147483648) 36 (by decide) (by decide) (by decide) (by decide)).1

end Log
